import Mathlib

/-!
# A verification model of `zc.zk` (`src/zc/zk/__init__.py`)

This file embeds, as executable Lean definitions, the parts of `zc.zk` that the
claims under scrutiny talk about:

* the payload codec `encode` / `decode` (lines 68-89), together with a model of
  the Python `json` module's compact serializer (`json.dumps` with separators
  `(',', ':')`) and its parser (`json.loads`);
* the symbolic-path resolver `Resolving.resolve` (lines 114-152), over a finite
  store of existing nodes, with the low-level client's `BadArguments` behaviour
  for ill-formed paths (the repository's own mock pins that behaviour down with
  the regex `(^([^/]|$))|(/\.\.?(/|$))|(./$)` in `testing.py`);
* the `Properties` mapping operations: `NodeInfo.__iter__`, `__contains__`,
  `__getitem__` (transitive property links), the `_setData` link check and the
  `_set` / `update` write path (lines 700-831);
* the ephemeral-node bookkeeping of the session layer (`_async` and the
  `_post_create` / `_post_delete` / `_post_set` / `_post_set_acl` hooks,
  lines 249-295);
* the reconnect sequence in `watch_session` (lines 164-188).

Scope notes on the `json` model: numbers are modelled as integers (IEEE floats
are out of scope for this development), strings escape only `"` and `\`
(`ensure_ascii` re-encoding of control and non-ASCII characters is not
modelled, and `\uXXXX` escapes are not parsed), and parsed objects keep their
members as an association list in source order (Python keeps the last of
duplicate keys; the claims never exercise duplicate keys).  Everything the
claims touch is covered exactly.
-/

namespace ZcZk

/-! ## Small list and character utilities -/

/-- Whitespace characters recognised between tokens by the Python `json`
parser: space, tab, newline, carriage return. -/
def isJsonWs (c : Char) : Bool :=
  c = ' ' || c = '\t' || c = '\n' || c = '\r'

/-- Whitespace characters stripped by Python's `str.strip()` (the ASCII ones:
space, tab, newline, carriage return, vertical tab, form feed). -/
def isPySpace (c : Char) : Bool :=
  c = ' ' || c = '\t' || c = '\n' || c = '\r' || c = Char.ofNat 11 || c = Char.ofNat 12

/-- Drop leading JSON whitespace (the parser's inter-token skipping). -/
def skipWs (cs : List Char) : List Char := cs.dropWhile isJsonWs

/-- Python `str.strip()`: remove leading and trailing whitespace. -/
def pyStrip (s : List Char) : List Char :=
  ((s.dropWhile isPySpace).reverse.dropWhile isPySpace).reverse

/-- First-match association-list lookup, the model of Python `dict` indexing
(`d[k]`) and `d.get(k)`. -/
def alookup {α β : Type} [DecidableEq α] : List (α × β) → α → Option β
  | [], _ => none
  | (k, v) :: rest, key => if k = key then some v else alookup rest key

/-! ## The JSON value model -/

/-- A JSON value as produced by Python's `json` module on `zc.zk` payloads.
Numbers are integers (floats out of scope); object members are kept in source
order. -/
inductive Json where
  | null
  | bool (b : Bool)
  | num (n : Int)
  | str (s : List Char)
  | arr (elems : List Json)
  | obj (members : List (List Char × Json))

/-- A decoded node-properties mapping: what Python `decode` returns. -/
abbrev Obj := List (List Char × Json)

/-- Python truthiness of a JSON value (`if not newpath:` in the resolver). -/
def jsonFalsy : Json → Bool
  | .null => true
  | .bool b => !b
  | .num n => n = 0
  | .str s => s.isEmpty
  | .arr es => es.isEmpty
  | .obj ms => ms.isEmpty

/-! ## Serialization: `json.dumps(props, separators=(',', ':'))` -/

/-- Decimal digit characters emitted for `n`, with fuel (structural, so the
kernel can evaluate it).  `natDigitsAux (n + 1) n acc` prepends the digits of
`n` to `acc`. -/
def natDigitsAux : Nat → Nat → List Char → List Char
  | 0, _, acc => acc
  | fuel + 1, n, acc =>
    if n < 10 then Nat.digitChar n :: acc
    else natDigitsAux fuel (n / 10) (Nat.digitChar (n % 10) :: acc)

/-- The decimal digits of `n`, most significant first. -/
def natDigits (n : Nat) : List Char := natDigitsAux (n + 1) n []

/-- Big-endian decimal value of a digit-character list (the parser's side). -/
def digitsToNat (ds : List Char) : Nat :=
  ds.foldl (fun acc c => acc * 10 + (c.toNat - 48)) 0

/-- `repr` of a Python int, as emitted by `json.dumps`. -/
def dumpInt : Int → List Char
  | .ofNat n => natDigits n
  | .negSucc m => '-' :: natDigits (m + 1)

/-- JSON string escaping as `json.dumps` produces it for the characters the
model covers: `"` and `\` get a backslash, everything else is emitted as is. -/
def escChar (c : Char) : List Char :=
  if c = '"' || c = '\\' then ['\\', c] else [c]

/-- The serialized body of a JSON string (no quotes). -/
def escStr (s : List Char) : List Char := (s.map escChar).flatten

/-- A serialized JSON string, quotes included. -/
def dumpStr (s : List Char) : List Char := '"' :: (escStr s ++ ['"'])

mutual

/-- `json.dumps(v, separators=(',', ':'))`: the compact serialization used by
`encode`. -/
def dumps : Json → List Char
  | .null => ['n', 'u', 'l', 'l']
  | .bool b => if b then ['t', 'r', 'u', 'e'] else ['f', 'a', 'l', 's', 'e']
  | .num n => dumpInt n
  | .str s => dumpStr s
  | .arr [] => ['[', ']']
  | .arr (v :: vs) => '[' :: (dumps v ++ dumpsElemsTail vs ++ [']'])
  | .obj [] => ['{', '}']
  | .obj (kv :: kvs) => '{' :: (dumpsMember kv ++ dumpsMembersTail kvs ++ ['}'])

/-- Serialized `,`-prefixed continuation of an array. -/
def dumpsElemsTail : List Json → List Char
  | [] => []
  | v :: vs => ',' :: (dumps v ++ dumpsElemsTail vs)

/-- One serialized object member, `"key":value`. -/
def dumpsMember : List Char × Json → List Char
  | (k, v) => dumpStr k ++ ':' :: dumps v

/-- Serialized `,`-prefixed continuation of an object. -/
def dumpsMembersTail : List (List Char × Json) → List Char
  | [] => []
  | kv :: kvs => ',' :: (dumpsMember kv ++ dumpsMembersTail kvs)

end

/-! ## Parsing: `json.loads` -/

/-- Unescape a backslash escape, as Python's `json` scanner does (minus the
`\uXXXX` form, which `dumps` never emits in this model). -/
def unescChar : Char → Option Char
  | 'n' => some '\n'
  | 't' => some '\t'
  | 'r' => some '\r'
  | 'b' => some (Char.ofNat 8)
  | 'f' => some (Char.ofNat 12)
  | '"' => some '"'
  | '\\' => some '\\'
  | '/' => some '/'
  | _ => none

mutual

/-- Parse the body of a JSON string after the opening quote, returning the
decoded characters and the input after the closing quote. -/
def parseStrBody : List Char → Option (List Char × List Char)
  | [] => none
  | c :: rest =>
    if c = '"' then some ([], rest)
    else if c = '\\' then parseStrEsc rest
    else
      match parseStrBody rest with
      | none => none
      | some (s, r) => some (c :: s, r)

/-- Parse what follows a backslash inside a string body. -/
def parseStrEsc : List Char → Option (List Char × List Char)
  | [] => none
  | d :: rest =>
    match unescChar d with
    | none => none
    | some u =>
      match parseStrBody rest with
      | none => none
      | some (s, r) => some (u :: s, r)

end

/-- Parse an integer literal (optional `-`, then decimal digits). -/
def parseNum : List Char → Option (Int × List Char)
  | [] => none
  | c :: rest =>
    if c = '-' then
      if (rest.takeWhile Char.isDigit) = [] then none
      else some (-(digitsToNat (rest.takeWhile Char.isDigit) : Int), rest.dropWhile Char.isDigit)
    else
      if ((c :: rest).takeWhile Char.isDigit) = [] then none
      else some ((digitsToNat ((c :: rest).takeWhile Char.isDigit) : Int),
                 (c :: rest).dropWhile Char.isDigit)

mutual

/-- Parse one JSON value; fuel-indexed so the recursion is structural and the
kernel can evaluate the parser on concrete payloads. -/
def parseVal : Nat → List Char → Option (Json × List Char)
  | 0, _ => none
  | fuel + 1, input =>
    match skipWs input with
    | [] => none
    | c :: rest =>
      if c = '{' then
        match skipWs rest with
        | [] => none
        | c2 :: r2 =>
          if c2 = '}' then some (.obj [], r2)
          else
            match parseMember fuel (c2 :: r2) with
            | none => none
            | some (kv, r3) =>
              match parseMembersRest fuel r3 with
              | none => none
              | some (kvs, r4) => some (.obj (kv :: kvs), r4)
      else if c = '[' then
        match skipWs rest with
        | [] => none
        | c2 :: r2 =>
          if c2 = ']' then some (.arr [], r2)
          else
            match parseVal fuel (c2 :: r2) with
            | none => none
            | some (v, r3) =>
              match parseElemsRest fuel r3 with
              | none => none
              | some (vs, r4) => some (.arr (v :: vs), r4)
      else if c = '"' then
        match parseStrBody rest with
        | none => none
        | some (s, r2) => some (.str s, r2)
      else if c = 'n' then
        if rest.take 3 = ['u', 'l', 'l'] then some (.null, rest.drop 3) else none
      else if c = 't' then
        if rest.take 3 = ['r', 'u', 'e'] then some (.bool true, rest.drop 3) else none
      else if c = 'f' then
        if rest.take 4 = ['a', 'l', 's', 'e'] then some (.bool false, rest.drop 4) else none
      else if c = '-' || c.isDigit then
        match parseNum (c :: rest) with
        | none => none
        | some (n, r2) => some (.num n, r2)
      else none

/-- After a parsed array element: `,` and another element, or `]` to close. -/
def parseElemsRest : Nat → List Char → Option (List Json × List Char)
  | 0, _ => none
  | fuel + 1, input =>
    match skipWs input with
    | [] => none
    | c :: rest =>
      if c = ']' then some ([], rest)
      else if c = ',' then
        match parseVal fuel rest with
        | none => none
        | some (v, r2) =>
          match parseElemsRest fuel r2 with
          | none => none
          | some (vs, r3) => some (v :: vs, r3)
      else none

/-- One object member: a string key, `:`, and a value. -/
def parseMember : Nat → List Char → Option ((List Char × Json) × List Char)
  | 0, _ => none
  | fuel + 1, input =>
    match skipWs input with
    | [] => none
    | c :: rest =>
      if c = '"' then
        match parseStrBody rest with
        | none => none
        | some (k, r1) =>
          match skipWs r1 with
          | [] => none
          | c2 :: r2 =>
            if c2 = ':' then
              match parseVal fuel r2 with
              | none => none
              | some (v, r3) => some ((k, v), r3)
            else none
      else none

/-- After a parsed object member: `,` and another member, or `}` to close. -/
def parseMembersRest : Nat → List Char → Option (Obj × List Char)
  | 0, _ => none
  | fuel + 1, input =>
    match skipWs input with
    | [] => none
    | c :: rest =>
      if c = '}' then some ([], rest)
      else if c = ',' then
        match parseMember fuel rest with
        | none => none
        | some (kv, r2) =>
          match parseMembersRest fuel r2 with
          | none => none
          | some (kvs, r3) => some (kv :: kvs, r3)
      else none

end

/-- `json.loads`: parse a complete document, requiring only whitespace after
the value (Python raises on trailing data). -/
def loads (s : List Char) : Option Json :=
  match parseVal (s.length + 1) s with
  | none => none
  | some (v, r) => if skipWs r = [] then some v else none

/-! ## The payload codec `encode` / `decode` (source lines 68-89) -/

/-- The reserved single-key payload name. -/
def strValKey : List Char := ['s', 't', 'r', 'i', 'n', 'g', '_', 'v', 'a', 'l', 'u', 'e']

/-- `encode(props)` (lines 68-75).  A one-entry mapping whose key is
`string_value` has its value written as the raw payload; an empty mapping
writes the empty payload; anything else is JSON-encoded compactly.  Python
returns the `string_value` value unchanged even when it is not a string (the
subsequent node write would then fail with a type error); that untranslatable
return is modelled as `none`. -/
def encode : Obj → Option (List Char)
  | [(k, v)] =>
    if k = strValKey then
      match v with
      | .str s => some s
      | _ => none
    else some (dumps (.obj [(k, v)]))
  | [] => some []
  | props => some (dumps (.obj props))

/-- `decode(sdata)` (lines 77-89): strip the payload; empty means the empty
mapping; a stripped payload delimited by `{` and `}` is JSON-parsed, with any
parse failure (and any other payload) yielding the single-entry
`string_value` mapping holding the raw, unstripped payload. -/
def decode (sdata : List Char) : Obj :=
  let s := pyStrip sdata
  if s = [] then []
  else if s.head? = some '{' && s.getLast? = some '}' then
    match loads s with
    | some (.obj kvs) => kvs
    | _ => [(strValKey, .str sdata)]
  else [(strValKey, .str sdata)]

/-- Does the rest of the input fail to continue a decimal literal?  The
round-trip lemmas thread this through so a serialized number is not glued to
what follows it. -/
def numStop : List Char → Bool
  | [] => true
  | c :: _ => !c.isDigit

/-! ## The node store and the low-level client's path checking

The store is a finite association list from existing canonical paths to raw
payloads.  `exists` and `get` raise `BadArgumentsException` on ill-formed
paths; the repository's own mock (`testing.py`) pins the ill-formed set down
with the regex `(^([^/]|$))|(/\.\.?(/|$))|(./$)`: not starting with `/`
(or empty), containing a `.` or `..` segment, or a trailing `/` on a
non-root path. -/

abbrev Store := List (List Char × List Char)

def existsNode (store : Store) (p : List Char) : Bool := (alookup store p).isSome

/-- Does a forbidden `/.` or `/..` segment start at this position?  (The
`/\.\.?(/|$)` part of the mock's `badpath` regex, anchored here.) -/
def dotSegAt : List Char → Bool
  | ['/', '.'] => true
  | '/' :: '.' :: '/' :: _ => true
  | ['/', '.', '.'] => true
  | '/' :: '.' :: '.' :: '/' :: _ => true
  | _ => false

/-- Regex search: does a forbidden dot segment occur anywhere? -/
def hasBadDotSeg : List Char → Bool
  | [] => false
  | c :: rest => dotSegAt (c :: rest) || hasBadDotSeg rest

def startsSlash (p : List Char) : Bool := p.head? = some '/'

/-- The mock's `badpath` predicate: the paths on which the low-level
`exists`/`get` raise `BadArgumentsException`. -/
def badpath (p : List Char) : Bool :=
  !startsSlash p || hasBadDotSeg p || (p.length ≥ 2 && p.getLast? = some '/')

/-- Python `path.endswith('/.')`. -/
def endsWithDot (p : List Char) : Bool := p.reverse.take 2 = ['.', '/']

/-- Python `path.endswith('/..')`. -/
def endsWithDotDot (p : List Char) : Bool := p.reverse.take 3 = ['.', '.', '/']

/-- The second component of Python `path.rsplit('/', 1)` (the final segment).
zc.zk only evaluates it on paths containing `/`; on a slash-free list this
model returns the whole list. -/
def rsplitName (p : List Char) : List Char :=
  (p.reverse.takeWhile (fun c => !(c = '/' : Bool))).reverse

/-- The first component of Python `path.rsplit('/', 1)` (everything before
the last slash; empty on a slash-free list). -/
def rsplitBase (p : List Char) : List Char :=
  ((p.reverse.dropWhile (fun c => !(c = '/' : Bool))).drop 1).reverse

/-- The errors a resolution can surface: `NoNodeException(path)`,
`LinkLoop(chain)`, `BadArgumentsException`, and a `TypeError` from indexing a
non-string truthy link value. -/
inductive RErr where
  | noNode (path : List Char)
  | linkLoop (chain : List (List Char))
  | badArgs
  | typeErr
deriving DecidableEq

/-- The low-level `get`: `BadArguments` on an ill-formed path, `NoNode` on an
absent node, else the raw payload. -/
def getNode (store : Store) (p : List Char) : Except RErr (List Char) :=
  if badpath p then .error .badArgs
  else
    match alookup store p with
    | none => .error (.noNode p)
    | some data => .ok data

/-- `Resolving.resolve` (lines 114-152), fuel-indexed.  `none` is running out
of fuel; `some` is the Python call's outcome.  Faithful points worth noting:
the `/.` and `/..` prefixes recurse with a fresh empty `seen` (the Python
calls pass no `seen` argument); a `BadArgumentsException` from `exists` is
swallowed when the path is absolute and converted to `NoNode(path)` when it
is relative; the body's `try` wraps only `NoNodeException` as
`NoNode(path)`, so `LinkLoop`, `BadArguments` and `TypeError` escape
unchanged; a falsy `name ->` property value raises the bare `NoNode()` that
the wrapper turns into `NoNode(path)`. -/
def resolve (store : Store) : Nat → List Char → List (List Char) →
    Option (Except RErr (List Char))
  | 0, _, _ => none
  | fuel + 1, path, seen =>
    if endsWithDot path then resolve store fuel path.dropLast.dropLast []
    else if endsWithDotDot path then
      match resolve store fuel path.dropLast.dropLast.dropLast [] with
      | none => none
      | some (.error e) => some (.error e)
      | some (.ok base) =>
        if base.contains '/' then some (.ok (rsplitBase base))
        else some (.error (.noNode path))
    else if badpath path && !startsSlash path then some (.error (.noNode path))
    else if !badpath path && existsNode store path then some (.ok path)
    else if path ∈ seen then some (.error (.linkLoop (seen ++ [path])))
    else
      match resolve store fuel (rsplitBase path) seen with
      | none => none
      | some (.error (.noNode _)) => some (.error (.noNode path))
      | some (.error e) => some (.error e)
      | some (.ok base2) =>
        if badpath (base2 ++ '/' :: rsplitName path) then some (.error .badArgs)
        else if existsNode store (base2 ++ '/' :: rsplitName path) then
          some (.ok (base2 ++ '/' :: rsplitName path))
        else
          match getNode store base2 with
          | .error (.noNode _) => some (.error (.noNode path))
          | .error e => some (.error e)
          | .ok data =>
            match alookup (decode data) (rsplitName path ++ [' ', '-', '>']) with
            | none => some (.error (.noNode path))
            | some (.str s) =>
              if s = [] then some (.error (.noNode path))
              else
                match resolve store fuel
                    (if s.head? = some '/' then s else base2 ++ '/' :: s)
                    (seen ++ [path]) with
                | some (.error (.noNode _)) => some (.error (.noNode path))
                | r => r
            | some v =>
              if jsonFalsy v then some (.error (.noNode path))
              else some (.error .typeErr)

/-! ## Properties: iteration, membership, linked lookup, guarded writes -/

/-- The property-link key suffix, `' =>'`. -/
def linkSuffix : List Char := [' ', '=', '>']

/-- `NodeInfo.__iter__` (lines 700-701): `iter(self.data)`, i.e. the keys of
the local decoded data, in order, verbatim. -/
def nodeIter (data : Obj) : List (List Char) := data.map Prod.fst

/-- `Properties.__contains__` (lines 811-812):
`key in self.data or (key + ' =>') in self.data`.  It consults only the local
data; no store access, no link dereference. -/
def propsContains (data : Obj) (key : List Char) : Bool :=
  (alookup data key).isSome || (alookup data (key ++ linkSuffix)).isSome

/-- Python `str.split()` (no separator): whitespace-run splitting, no empty
tokens.  Structural accumulator form so the kernel evaluates it. -/
def splitWsAux : List Char → List Char → List (List Char)
  | [], tok => if tok.isEmpty then [] else [tok.reverse]
  | c :: rest, tok =>
    if isPySpace c then
      if tok.isEmpty then splitWsAux rest [] else tok.reverse :: splitWsAux rest []
    else splitWsAux rest (c :: tok)

def splitWs (s : List Char) : List (List Char) := splitWsAux s []

/-- Errors out of `Properties.__getitem__`: a plain `KeyError` when neither
the key nor its link form is present, and `BadPropertyLink` wrapping anything
that goes wrong while dereferencing a link. -/
inductive PErr where
  | keyErr
  | badLink
deriving DecidableEq

/-- `Properties.__getitem__` (lines 778-806) with the `seen` loop check.  The
linked `Properties` observer's snapshot is its target's decoded payload (what
`_setup_link` reads at construction).  `none` is running out of fuel. -/
def propGetItem (store : Store) : Nat → List Char → Obj → List Char → List (List Char) →
    Option (Except PErr Json)
  | 0, _, _, _, _ => none
  | fuel + 1, selfPath, data, key, seen =>
    match alookup data key with
    | some v => some (.ok v)
    | none =>
      match alookup data (key ++ linkSuffix) with
      | none => some (.error .keyErr)
      | some (.str s) =>
        if (splitWs s).length > 2 then some (.error .badLink)
        else
          match splitWs s with
          | [] => some (.error .badLink)
          | p0 :: restToks =>
            match resolve store fuel
                (if p0.head? = some '/' then p0 else selfPath ++ '/' :: p0) [] with
            | none => none
            | some (.error _) => some (.error .badLink)
            | some (.ok rp) =>
              if rp ∈ seen then some (.error .badLink)
              else
                match getNode store rp with
                | .error _ => some (.error .badLink)
                | .ok payload =>
                  match propGetItem store fuel rp (decode payload)
                      (match restToks with | [] => key | f :: _ => f) (seen ++ [rp]) with
                  | none => none
                  | some (.ok v) => some (.ok v)
                  | some (.error _) => some (.error .badLink)
      | some _ => some (.error .badLink)

/-- Does this key end in `' =>'`? -/
def isLinkKey (name : List Char) : Bool := name.reverse.take 3 = ['>', '=', ' ']

/-- Python `name[:-3]`. -/
def stripLink (name : List Char) : List Char := name.dropLast.dropLast.dropLast

/-- One pass of the `try` block inside `Properties._setData` (lines 724-740)
for a link entry: split the value, demand 1 or 2 tokens, resolve the target
path, build the linked observer, and dereference the field.  `some false` is
the except-branch (with `handle_errors` false, a `ValueError('Bad property
link', ...)`); `some true` means the link checks out; `none` is out of
fuel. -/
def checkLink (store : Store) (fuel : Nat) (selfPath : List Char) (name : List Char)
    (value : Json) : Option Bool :=
  match value with
  | .str s =>
    if !(1 ≤ (splitWs s).length && (splitWs s).length ≤ 2) then some false
    else
      match splitWs s with
      | [] => some false
      | p0 :: restToks =>
        match resolve store fuel
            (if p0.head? = some '/' then p0 else selfPath ++ '/' :: p0) [] with
        | none => none
        | some (.error _) => some false
        | some (.ok rp) =>
          match getNode store rp with
          | .error _ => some false
          | .ok payload =>
            match propGetItem store fuel rp (decode payload)
                (match restToks with | [] => stripLink name | f :: _ => f) [] with
            | none => none
            | some (.ok _) => some true
            | some (.error _) => some false
  | _ => some false

/-- The link-check loop of `Properties._setData` (lines 721-740): every
`' =>'` key whose stripped name is not itself a key of the data is checked in
order; the first failure aborts.  The first `Obj` argument is the full new
data (for the shadowing test `name[:-3] not in data`), the second is the tail
still to scan. -/
def checkDataLinksAux (store : Store) (fuel : Nat) (selfPath : List Char) (data : Obj) :
    Obj → Option Bool
  | [] => some true
  | (name, value) :: rest =>
    if isLinkKey name && (alookup data (stripLink name)).isNone then
      match checkLink store fuel selfPath name value with
      | none => none
      | some false => some false
      | some true => checkDataLinksAux store fuel selfPath data rest
    else checkDataLinksAux store fuel selfPath data rest

def checkDataLinks (store : Store) (fuel : Nat) (selfPath : List Char) (data : Obj) :
    Option Bool :=
  checkDataLinksAux store fuel selfPath data data

/-- A `Properties` observer's interesting state: the backing store, the node
path, and the local decoded snapshot `self.data`. -/
structure PropsState where
  store : Store
  path : List Char
  data : Obj

/-- One store write (`zookeeper.set`): replace the payload at an existing
path. -/
def storeSet (store : Store) (p payload : List Char) : Store :=
  store.map (fun kv => if kv.1 = p then (kv.1, payload) else kv)

/-- `Properties._set` (lines 817-819): `_setData(data)` runs the link check
first — raising before `self.data` is touched — and only then does
`session._set(self.path, encode(data))` write the store.  The result pairs
the post-call state with whether the store write was issued; `some (st,
false)` with the original `st` is the `ValueError` outcome.  (The `encode`
`none` case and a missing node are Python `TypeError`/`NoNode` after
`self.data` was already replaced.) -/
def propsSet (st : PropsState) (new : Obj) (fuel : Nat) : Option (PropsState × Bool) :=
  match checkDataLinks st.store fuel st.path new with
  | none => none
  | some false => some (st, false)
  | some true =>
    match encode new with
    | none => some ({ st with data := new }, false)
    | some payload =>
      if existsNode st.store st.path then
        some ({ st with data := new, store := storeSet st.store st.path payload }, true)
      else some ({ st with data := new }, false)

/-- Python `dict` assignment `d[k] = v`: replace in place or append. -/
def dictSet (d : Obj) (k : List Char) (v : Json) : Obj :=
  if (alookup d k).isSome then d.map (fun kv => if kv.1 = k then (k, v) else kv)
  else d ++ [(k, v)]

/-- Python `dict.update`. -/
def dictUpdate (d : Obj) (new : Obj) : Obj :=
  new.foldl (fun acc kv => dictSet acc kv.1 kv.2) d

/-- `Properties.update` (lines 826-831): merge into a copy of the current
snapshot, then `_set` the merged mapping. -/
def propsUpdate (st : PropsState) (new : Obj) (fuel : Nat) : Option (PropsState × Bool) :=
  propsSet st (dictUpdate st.data new) fuel

/-! ## Ephemeral-node bookkeeping (lines 248-295) -/

/-- `zookeeper.EPHEMERAL`. -/
def EPHEMERAL : Nat := 1

/-- What `_post_create` remembers for an ephemeral node: `dict(data=data,
acl=acl, flags=flags)`. -/
structure EphEntry (β γ : Type) where
  data : β
  acl : γ
  flags : Nat
deriving DecidableEq

/-- One client operation together with its completion status (`ok` is
`status == 0` of the async completion; a sync call that raises never reaches
its post hook, which is the same shape). -/
inductive ZOp (α β γ : Type) where
  | create (path : α) (data : β) (acl : γ) (flags : Nat) (ok : Bool)
  | delete (path : α) (ok : Bool)
  | setData (path : α) (data : β) (ok : Bool)
  | setAcl (path : α) (acl : γ) (ok : Bool)
deriving DecidableEq

def ZOp.isOk {α β γ : Type} : ZOp α β γ → Bool
  | .create _ _ _ _ ok => ok
  | .delete _ ok => ok
  | .setData _ _ ok => ok
  | .setAcl _ _ ok => ok

abbrev EphMap (α β γ : Type) := List (α × EphEntry β γ)

/-- Python `dict` assignment for the ephemeral map. -/
def mapSet {α β γ : Type} [DecidableEq α] (m : EphMap α β γ) (p : α) (e : EphEntry β γ) :
    EphMap α β γ :=
  if (alookup m p).isSome then m.map (fun kv => if kv.1 = p then (p, e) else kv)
  else m ++ [(p, e)]

/-- The `_async` dispatch (lines 249-264) combined with the `_post_create` /
`_post_delete` / `_post_set` / `_post_set_acl` hooks (lines 270-295): the
hook runs exactly when the operation completed with status 0, and a non-OK
completion leaves the map untouched. -/
def postStep {α β γ : Type} [DecidableEq α] (m : EphMap α β γ) : ZOp α β γ → EphMap α β γ
  | .create p d a f true => if f &&& EPHEMERAL ≠ 0 then mapSet m p ⟨d, a, f⟩ else m
  | .delete p true => m.filter (fun kv => !(kv.1 = p : Bool))
  | .setData p d true =>
    if (alookup m p).isSome then
      m.map (fun kv => if kv.1 = p then (p, { kv.2 with data := d }) else kv)
    else m
  | .setAcl p a true =>
    if (alookup m p).isSome then
      m.map (fun kv => if kv.1 = p then (p, { kv.2 with acl := a }) else kv)
    else m
  | _ => m

/-- The ephemeral map after a history of operations, starting empty. -/
def runOps {α β γ : Type} [DecidableEq α] (ops : List (ZOp α β γ)) : EphMap α β γ :=
  ops.foldl postStep []

/-- The specification's reading of the map, written from the claim's words
and independent of `postStep`: scanning the history backwards, a successful
ephemeral create fixes the entry, a successful delete removes it, successful
set / set-acl update the surviving entry's data or acl, and everything else
(including every non-OK completion) is invisible. -/
def ephSpecRev {α β γ : Type} [DecidableEq α] : List (ZOp α β γ) → α → Option (EphEntry β γ)
  | [], _ => none
  | op :: earlier, p =>
    match op with
    | .create q d a f true =>
      if q = p then
        (if f &&& EPHEMERAL ≠ 0 then some ⟨d, a, f⟩ else ephSpecRev earlier p)
      else ephSpecRev earlier p
    | .delete q true => if q = p then none else ephSpecRev earlier p
    | .setData q d true =>
      if q = p then (ephSpecRev earlier p).map (fun e => { e with data := d })
      else ephSpecRev earlier p
    | .setAcl q a true =>
      if q = p then (ephSpecRev earlier p).map (fun e => { e with acl := a })
      else ephSpecRev earlier p
    | _ => ephSpecRev earlier p

/-- The claim's map: `ephSpecRev` over the reversed (most recent first)
history. -/
def ephSpec {α β γ : Type} [DecidableEq α] (ops : List (ZOp α β γ)) (p : α) :
    Option (EphEntry β γ) :=
  ephSpecRev ops.reverse p

/-! ## The reconnect sequence of `watch_session` (lines 164-188) -/

/-- An action taken by the new-session `CONNECTED` branch. -/
inductive SessAct (W : Type) where
  | rearmWatch (w : W)
  | recreate (path : List Char)

def SessAct.isRearm {W : Type} : SessAct W → Bool
  | .rearmWatch _ => true
  | _ => false

def SessAct.isRecreate {W : Type} : SessAct W → Bool
  | .recreate _ => true
  | _ => false

/-- `watch_session` lines 167-174, `CONNECTED` with `self.handle is None`:
first `for watch in self.watches.clear(): self._watch(watch)` re-arms every
registered watch, and only then `for path, data in self.ephemeral.items():
zookeeper.create(...)` recreates the remembered ephemerals. -/
def reconnectSequence {W β γ : Type} (watches : List W)
    (ephnodes : List (List Char × EphEntry β γ)) : List (SessAct W) :=
  watches.map SessAct.rearmWatch ++ ephnodes.map (fun kv => SessAct.recreate kv.1)

/-! ## The extra-children sweep of `_import_tree` (lines 404-414) -/

/-- An effect of the sweep over live children absent from the DSL. -/
inductive ImpAct where
  | deleteRec (path : List Char)
  | printNotTrimmed (line : List Char)
deriving DecidableEq

/-- `join(path, name)` = `'/'.join((path, name))`. -/
def joinPath (p name : List Char) : List Char := p ++ '/' :: name

/-- The printed line `'extra path not trimmed:', cpath` (Python `print` with a
comma inserts one space). -/
def notTrimmedMsg (cpath : List Char) : List Char :=
  ['e', 'x', 't', 'r', 'a', ' ', 'p', 'a', 't', 'h', ' ', 'n', 'o', 't', ' ',
   't', 'r', 'i', 'm', 'm', 'e', 'd', ':', ' '] ++ cpath

/-- Lines 405-414: for every live child not among the DSL node's children
(the code walks them in sorted order; the order is taken as given here),
`if trim:` recursively delete, `else:` print `extra path not trimmed:`.
`trim` is `True`, `False` or `None`; only `True` is truthy. -/
def extraChildOps (trim : Option Bool) (path : List Char)
    (liveChildren dslChildren : List (List Char)) : List ImpAct :=
  (liveChildren.filter (fun name => !(dslChildren.contains name))).map
    (fun name =>
      if trim = some true then ImpAct.deleteRec (joinPath path name)
      else ImpAct.printNotTrimmed (notTrimmedMsg (joinPath path name)))

/-! ## Resolver lemmas -/

/-- A well-formed node store, as the coordination service guarantees: every
existing path is well-formed, and the parent of every existing non-top-level
path exists. -/
def StoreWF (store : Store) : Prop :=
  ∀ pd ∈ store, badpath pd.1 = false ∧
    (rsplitBase pd.1 ≠ [] → existsNode store (rsplitBase pd.1) = true)

instance (store : Store) : Decidable (StoreWF store) := by
  unfold StoreWF
  infer_instance

/-- Over a most-recent-first history: some successful ephemeral create of `p`
is not preceded (in real time: not followed) by a successful delete of `p`. -/
def hasLiveCreateRev {α β γ : Type} [DecidableEq α] (p : α) (rops : List (ZOp α β γ)) :
    Prop :=
  ∃ l d a fl r, rops = l ++ ZOp.create p d a fl true :: r ∧ fl &&& EPHEMERAL ≠ 0 ∧
    ZOp.delete p true ∉ l

/-- Concrete store used by the Properties write-path examples: the root and
`/svc`. -/
def svcPath : List Char := ['/', 's', 'v', 'c']

def demoStore : Store := [(['/'], []), (svcPath, ['x'])]

/-- A `/svc` observer holding `{threads: 1}`. -/
def demoState : PropsState :=
  ⟨demoStore, svcPath, [(['t', 'h', 'r', 'e', 'a', 'd', 's'], Json.num 1)]⟩

/-- The dangling property link of the spec's own scenario:
`'c =>': '/missing x'`. -/
def badLinkKey : List Char := ['c', ' ', '=', '>']

def badLinkVal : Json := .str ['/', 'm', 'i', 's', 's', 'i', 'n', 'g', ' ', 'x']

/-- The claim of C1 at a given action list: every ephemeral create comes
before every watch re-arm. -/
def createsPrecedeRearms {W : Type} (acts : List (SessAct W)) : Prop :=
  ∀ i j : Fin acts.length, (acts.get i).isRecreate = true →
    (acts.get j).isRearm = true → i.1 < j.1

instance {W : Type} (acts : List (SessAct W)) : Decidable (createsPrecedeRearms acts) := by
  unfold createsPrecedeRearms
  infer_instance

/-! ## Theorems -/

theorem alookup_isSome_iff {α β : Type} [DecidableEq α] (l : List (α × β)) (key : α) :
    (alookup l key).isSome = true ↔ ∃ v, (key, v) ∈ l := by
  induction l with
  | nil => simp [alookup]
  | cons kv rest ih =>
    obtain ⟨k, v⟩ := kv
    by_cases hk : k = key
    · subst hk
      simp [alookup]
    · simp only [alookup, if_neg hk, ih, List.mem_cons]
      constructor
      · rintro ⟨w, hw⟩
        exact ⟨w, Or.inr hw⟩
      · rintro ⟨w, hw | hw⟩
        · cases hw
          exact absurd rfl hk
        · exact ⟨w, hw⟩

theorem digitChar_toNat {n : Nat} (h : n < 10) : (Nat.digitChar n).toNat = 48 + n := by
  interval_cases n <;> rfl

theorem digitChar_isDigit {n : Nat} (h : n < 10) : (Nat.digitChar n).isDigit = true := by
  interval_cases n <;> rfl

theorem natDigitsAux_append (fuel : Nat) :
    ∀ (n : Nat) (acc : List Char), natDigitsAux fuel n acc = natDigitsAux fuel n [] ++ acc := by
  induction fuel with
  | zero => intro n acc; simp [natDigitsAux]
  | succ fuel ih =>
    intro n acc
    by_cases h : n < 10
    · simp [natDigitsAux, h]
    · rw [natDigitsAux, if_neg h, natDigitsAux, if_neg h,
        ih (n / 10) (Nat.digitChar (n % 10) :: acc), ih (n / 10) [Nat.digitChar (n % 10)]]
      simp

theorem natDigitsAux_all_digits (fuel : Nat) :
    ∀ (n : Nat), n < fuel → ∀ c ∈ natDigitsAux fuel n [], c.isDigit = true := by
  induction fuel with
  | zero => intro n hn; omega
  | succ fuel ih =>
    intro n hn c hc
    by_cases h : n < 10
    · simp only [natDigitsAux, if_pos h, List.mem_singleton] at hc
      subst hc
      exact digitChar_isDigit h
    · rw [natDigitsAux, if_neg h, natDigitsAux_append] at hc
      rcases List.mem_append.mp hc with hc | hc
      · exact ih (n / 10) (by omega) c hc
      · simp only [List.mem_singleton] at hc
        subst hc
        exact digitChar_isDigit (Nat.mod_lt _ (by omega))

theorem natDigitsAux_ne_nil (fuel : Nat) (n : Nat) (h : n < fuel) :
    natDigitsAux fuel n [] ≠ [] := by
  cases fuel with
  | zero => omega
  | succ fuel =>
    by_cases h10 : n < 10
    · simp [natDigitsAux, h10]
    · rw [natDigitsAux, if_neg h10, natDigitsAux_append]
      rcases List.eq_nil_or_concat (natDigitsAux fuel (n / 10) []) with he | ⟨l, b, he⟩ <;>
        simp [he]

theorem digitsToNat_append_digit (ds : List Char) (c : Char) :
    digitsToNat (ds ++ [c]) = digitsToNat ds * 10 + (c.toNat - 48) := by
  simp [digitsToNat, List.foldl_append]

theorem digitsToNat_natDigitsAux (fuel : Nat) :
    ∀ (n : Nat), n < fuel → digitsToNat (natDigitsAux fuel n []) = n := by
  induction fuel with
  | zero => intro n hn; omega
  | succ fuel ih =>
    intro n hn
    by_cases h : n < 10
    · simp [natDigitsAux, h, digitsToNat, digitChar_toNat h]
    · rw [natDigitsAux, if_neg h, natDigitsAux_append, digitsToNat_append_digit,
        ih (n / 10) (by omega), digitChar_toNat (Nat.mod_lt _ (by omega))]
      omega

theorem digitsToNat_natDigits (n : Nat) : digitsToNat (natDigits n) = n :=
  digitsToNat_natDigitsAux (n + 1) n (by omega)

theorem natDigits_all_digits (n : Nat) : ∀ c ∈ natDigits n, c.isDigit = true :=
  natDigitsAux_all_digits (n + 1) n (by omega)

theorem natDigits_ne_nil (n : Nat) : natDigits n ≠ [] :=
  natDigitsAux_ne_nil (n + 1) n (by omega)

/-! ## Round trip of the JSON codec -/

theorem skipWs_cons {c : Char} (rest : List Char) (h : isJsonWs c = false) :
    skipWs (c :: rest) = c :: rest := by
  simp [skipWs, List.dropWhile_cons, h]

theorem parseStrBody_escStr : ∀ (s rest : List Char),
    parseStrBody (escStr s ++ '"' :: rest) = some (s, rest) := by
  intro s
  induction s with
  | nil => intro rest; simp [escStr, parseStrBody]
  | cons c s ih =>
    intro rest
    by_cases h1 : c = '"'
    · subst h1
      have harg : escStr ('"' :: s) ++ '"' :: rest
          = '\\' :: '"' :: (escStr s ++ '"' :: rest) := by
        simp [escStr, escChar]
      rw [harg]
      simp [parseStrBody, parseStrEsc, unescChar, ih rest]
    · by_cases h2 : c = '\\'
      · subst h2
        have harg : escStr ('\\' :: s) ++ '"' :: rest
            = '\\' :: '\\' :: (escStr s ++ '"' :: rest) := by
          simp [escStr, escChar]
        rw [harg]
        simp [parseStrBody, parseStrEsc, unescChar, ih rest]
      · have harg : escStr (c :: s) ++ '"' :: rest
            = c :: (escStr s ++ '"' :: rest) := by
          simp [escStr, escChar, h1, h2]
        rw [harg]
        simp [parseStrBody, h1, h2, ih rest]

theorem takeWhile_append_all {p : Char → Bool} :
    ∀ (a b : List Char), (∀ c ∈ a, p c = true) → (a ++ b).takeWhile p = a ++ b.takeWhile p := by
  intro a b
  induction a with
  | nil => intro _; simp
  | cons c a ih =>
    intro h
    have hc : p c = true := h c (List.mem_cons_self c a)
    simp only [List.cons_append, List.takeWhile_cons, hc, if_true]
    rw [ih (fun d hd => h d (List.mem_cons_of_mem c hd))]

theorem dropWhile_append_all {p : Char → Bool} :
    ∀ (a b : List Char), (∀ c ∈ a, p c = true) → (a ++ b).dropWhile p = b.dropWhile p := by
  intro a b
  induction a with
  | nil => intro _; simp
  | cons c a ih =>
    intro h
    have hc : p c = true := h c (List.mem_cons_self c a)
    simp only [List.cons_append, List.dropWhile_cons, hc, if_true]
    exact ih (fun d hd => h d (List.mem_cons_of_mem c hd))

theorem takeWhile_digits_of_numStop {b : List Char} (h : numStop b = true) :
    b.takeWhile Char.isDigit = [] ∧ b.dropWhile Char.isDigit = b := by
  cases b with
  | nil => simp
  | cons c t =>
    simp only [numStop, Bool.not_eq_true'] at h
    simp [List.takeWhile_cons, List.dropWhile_cons, h]

theorem digit_ne (c : Char) (h : c.isDigit = true) :
    c ≠ '-' ∧ c ≠ '{' ∧ c ≠ '[' ∧ c ≠ '"' ∧ c ≠ 'n' ∧ c ≠ 't' ∧ c ≠ 'f' ∧
      c ≠ ']' ∧ c ≠ '}' ∧ c ≠ ',' ∧ c ≠ ':' ∧ isJsonWs c = false := by
  refine ⟨?_, ?_, ?_, ?_, ?_, ?_, ?_, ?_, ?_, ?_, ?_, ?_⟩
  all_goals first
    | (intro hq; rw [hq] at h; exact absurd h (by decide))
    | (by_contra hw
       simp only [isJsonWs, Bool.or_eq_true, decide_eq_true_eq, Bool.not_eq_false] at hw
       rcases hw with ((rfl | rfl) | rfl) | rfl <;> exact absurd h (by decide))

theorem parseNum_dumpInt (n : Int) (rest : List Char) (h : numStop rest = true) :
    parseNum (dumpInt n ++ rest) = some (n, rest) := by
  obtain ⟨htw, hdw⟩ := takeWhile_digits_of_numStop h
  cases n with
  | ofNat m =>
    obtain ⟨c, t, hct⟩ := List.exists_cons_of_ne_nil (natDigits_ne_nil m)
    have hcd : c.isDigit = true := by
      apply natDigits_all_digits m
      rw [hct]; exact List.mem_cons_self c t
    have hmemt : ∀ d ∈ t, d.isDigit = true := by
      intro d hd
      apply natDigits_all_digits m
      rw [hct]; exact List.mem_cons_of_mem c hd
    have hne : c ≠ '-' := (digit_ne c hcd).1
    have harg : dumpInt (.ofNat m) ++ rest = c :: (t ++ rest) := by
      simp [dumpInt, hct]
    rw [harg, parseNum, if_neg hne]
    have htake : (c :: (t ++ rest)).takeWhile Char.isDigit = c :: t := by
      simp only [List.takeWhile_cons, hcd, if_true]
      rw [takeWhile_append_all t rest hmemt, htw, List.append_nil]
    have hdrop : (c :: (t ++ rest)).dropWhile Char.isDigit = rest := by
      simp only [List.dropWhile_cons, hcd, if_true]
      rw [dropWhile_append_all t rest hmemt, hdw]
    rw [htake, hdrop, if_neg (by simp)]
    have : digitsToNat (c :: t) = m := by rw [← hct]; exact digitsToNat_natDigits m
    simp [this]
  | negSucc m =>
    have hmem : ∀ d ∈ natDigits (m + 1), d.isDigit = true := natDigits_all_digits (m + 1)
    have harg : dumpInt (.negSucc m) ++ rest = '-' :: (natDigits (m + 1) ++ rest) := by
      simp [dumpInt]
    rw [harg, parseNum, if_pos rfl]
    have htake : (natDigits (m + 1) ++ rest).takeWhile Char.isDigit = natDigits (m + 1) := by
      rw [takeWhile_append_all _ rest hmem, htw, List.append_nil]
    have hdrop : (natDigits (m + 1) ++ rest).dropWhile Char.isDigit = rest := by
      rw [dropWhile_append_all _ rest hmem, hdw]
    rw [htake, hdrop, if_neg (natDigits_ne_nil (m + 1)), digitsToNat_natDigits]
    have : -((m + 1 : Nat) : Int) = Int.negSucc m := by
      rw [Int.negSucc_eq]
      push_cast
      ring
    rw [this]

theorem dumpInt_head (n : Int) :
    ∃ c t, dumpInt n = c :: t ∧ (c = '-' ∨ c.isDigit = true) := by
  cases n with
  | ofNat m =>
    obtain ⟨c, t, hct⟩ := List.exists_cons_of_ne_nil (natDigits_ne_nil m)
    refine ⟨c, t, by simp [dumpInt, hct], Or.inr ?_⟩
    apply natDigits_all_digits m
    rw [hct]; exact List.mem_cons_self c t
  | negSucc m => exact ⟨'-', natDigits (m + 1), rfl, Or.inl rfl⟩

/-- Every serialized value starts with a character that is not whitespace and
closes nothing. -/
theorem dumps_head (v : Json) :
    ∃ c t, dumps v = c :: t ∧ isJsonWs c = false ∧ c ≠ ']' ∧ c ≠ '}' ∧ c ≠ ',' := by
  cases v with
  | null => exact ⟨'n', _, rfl, by decide, by decide, by decide, by decide⟩
  | bool b =>
    cases b with
    | true => exact ⟨'t', _, rfl, by decide, by decide, by decide, by decide⟩
    | false => exact ⟨'f', _, rfl, by decide, by decide, by decide, by decide⟩
  | num n =>
    obtain ⟨c, t, hct, hc⟩ := dumpInt_head n
    rcases hc with rfl | hc
    · exact ⟨'-', t, by simp [dumps, hct], by decide, by decide, by decide, by decide⟩
    · obtain ⟨_, _, _, _, _, _, _, h1, h2, h3, _, h5⟩ := digit_ne c hc
      exact ⟨c, t, by simp [dumps, hct], h5, h1, h2, h3⟩
  | str s => exact ⟨'"', _, rfl, by decide, by decide, by decide, by decide⟩
  | arr es =>
    cases es with
    | nil => exact ⟨'[', _, rfl, by decide, by decide, by decide, by decide⟩
    | cons v vs => exact ⟨'[', _, rfl, by decide, by decide, by decide, by decide⟩
  | obj ms =>
    cases ms with
    | nil => exact ⟨'{', _, rfl, by decide, by decide, by decide, by decide⟩
    | cons kv kvs => exact ⟨'{', _, rfl, by decide, by decide, by decide, by decide⟩

theorem skipWs_dumps (v : Json) (x : List Char) :
    skipWs (dumps v ++ x) = dumps v ++ x := by
  obtain ⟨c, t, hct, hws, _, _, _⟩ := dumps_head v
  rw [hct, List.cons_append]
  exact skipWs_cons _ hws

theorem numStop_elemsTail (vs : List Json) (rest : List Char) :
    numStop (dumpsElemsTail vs ++ ']' :: rest) = true := by
  cases vs <;> simp [dumpsElemsTail, numStop]

theorem numStop_membersTail (kvs : Obj) (rest : List Char) :
    numStop (dumpsMembersTail kvs ++ '}' :: rest) = true := by
  cases kvs <;> simp [dumpsMembersTail, numStop]

/-- Number inputs fall through the structured branches of `parseVal` to
`parseNum`. -/
theorem parseVal_num_entry (fuel : Nat) (c : Char) (t : List Char)
    (hc : c = '-' ∨ c.isDigit = true) :
    parseVal (fuel + 1) (c :: t)
      = (match parseNum (c :: t) with
         | none => none
         | some (n, r2) => some (Json.num n, r2)) := by
  have hprops : isJsonWs c = false ∧ c ≠ '{' ∧ c ≠ '[' ∧ c ≠ '"' ∧ c ≠ 'n' ∧ c ≠ 't' ∧
      c ≠ 'f' ∧ (c = '-' || c.isDigit) = true := by
    rcases hc with rfl | hc
    · exact ⟨by decide, by decide, by decide, by decide, by decide, by decide, by decide,
        by decide⟩
    · obtain ⟨_, h2, h3, h4, h5, h6, h7, _, _, _, _, h12⟩ := digit_ne c hc
      exact ⟨h12, h2, h3, h4, h5, h6, h7, by simp [hc]⟩
  obtain ⟨hws, h2, h3, h4, h5, h6, h7, h8⟩ := hprops
  rw [parseVal, skipWs_cons t hws]
  simp only [if_neg h2, if_neg h3, if_neg h4, if_neg h5, if_neg h6, if_neg h7, if_pos h8]

/-- Definitional unfolding of the array branch of `parseVal`. -/
theorem parseVal_arrBranch (f : Nat) (inner : List Char) :
    parseVal (f + 1) ('[' :: inner)
      = (match skipWs inner with
         | [] => none
         | c2 :: r2 =>
           if c2 = ']' then some (Json.arr [], r2)
           else
             match parseVal f (c2 :: r2) with
             | none => none
             | some (v, r3) =>
               match parseElemsRest f r3 with
               | none => none
               | some (vs, r4) => some (Json.arr (v :: vs), r4)) := rfl

/-- Definitional unfolding of the object branch of `parseVal`. -/
theorem parseVal_objBranch (f : Nat) (inner : List Char) :
    parseVal (f + 1) ('{' :: inner)
      = (match skipWs inner with
         | [] => none
         | c2 :: r2 =>
           if c2 = '}' then some (Json.obj [], r2)
           else
             match parseMember f (c2 :: r2) with
             | none => none
             | some (kv, r3) =>
               match parseMembersRest f r3 with
               | none => none
               | some (kvs, r4) => some (Json.obj (kv :: kvs), r4)) := rfl

/-- Definitional unfolding of `parseElemsRest` on a comma. -/
theorem parseElemsRest_comma (f : Nat) (x : List Char) :
    parseElemsRest (f + 1) (',' :: x)
      = (match parseVal f x with
         | none => none
         | some (v, r2) =>
           match parseElemsRest f r2 with
           | none => none
           | some (vs, r3) => some (v :: vs, r3)) := rfl

/-- Definitional unfolding of `parseMembersRest` on a comma. -/
theorem parseMembersRest_comma (f : Nat) (x : List Char) :
    parseMembersRest (f + 1) (',' :: x)
      = (match parseMember f x with
         | none => none
         | some (kv, r2) =>
           match parseMembersRest f r2 with
           | none => none
           | some (kvs, r3) => some (kv :: kvs, r3)) := rfl

/-- Definitional unfolding of `parseMember` on an opening quote. -/
theorem parseMember_quote (f : Nat) (x : List Char) :
    parseMember (f + 1) ('"' :: x)
      = (match parseStrBody x with
         | none => none
         | some (k, r1) =>
           match skipWs r1 with
           | [] => none
           | c2 :: r2 =>
             if c2 = ':' then
               match parseVal f r2 with
               | none => none
               | some (v, r3) => some ((k, v), r3)
             else none) := rfl

mutual

theorem parseVal_dumps : ∀ (v : Json) (fuel : Nat) (rest : List Char),
    (dumps v).length < fuel → numStop rest = true →
    parseVal fuel (dumps v ++ rest) = some (v, rest)
  | .null, fuel, rest, hf, _ => by
    cases fuel with
    | zero => omega
    | succ f => rfl
  | .bool b, fuel, rest, hf, _ => by
    cases fuel with
    | zero => omega
    | succ f => cases b <;> rfl
  | .num n, fuel, rest, hf, hr => by
    cases fuel with
    | zero => omega
    | succ f =>
      obtain ⟨c, t, hct, hc⟩ := dumpInt_head n
      have harg : dumps (.num n) ++ rest = c :: (t ++ rest) := by
        simp [dumps, hct]
      have hnum : parseNum (c :: (t ++ rest)) = some (n, rest) := by
        rw [← List.cons_append, ← hct]
        exact parseNum_dumpInt n rest hr
      rw [harg, parseVal_num_entry f c _ hc]
      simp only [hnum]
  | .str s, fuel, rest, hf, _ => by
    cases fuel with
    | zero => omega
    | succ f =>
      have harg : dumps (.str s) ++ rest = '"' :: (escStr s ++ '"' :: rest) := by
        simp [dumps, dumpStr]
      rw [harg, parseVal, skipWs_cons _ (by decide)]
      simp [parseStrBody_escStr s rest]
  | .arr [], fuel, rest, hf, _ => by
    cases fuel with
    | zero => omega
    | succ f => rfl
  | .arr (v :: vs), fuel, rest, hf, _ => by
    cases fuel with
    | zero => omega
    | succ f =>
      have harg : dumps (.arr (v :: vs)) ++ rest
          = '[' :: (dumps v ++ (dumpsElemsTail vs ++ ']' :: rest)) := by
        simp [dumps]
      have hlen : (dumps v).length < f ∧ (dumpsElemsTail vs).length < f := by
        have : (dumps (.arr (v :: vs))).length
            = (dumps v).length + (dumpsElemsTail vs).length + 2 := by
          simp [dumps] <;> omega
        omega
      obtain ⟨c, t, hct, _, hbr, _, _⟩ := dumps_head v
      have hv : parseVal f (c :: (t ++ (dumpsElemsTail vs ++ ']' :: rest)))
          = some (v, dumpsElemsTail vs ++ ']' :: rest) := by
        rw [← List.cons_append, ← hct]
        exact parseVal_dumps v f _ hlen.1 (numStop_elemsTail vs rest)
      have he := parseElemsRest_dumps vs f rest hlen.2
      rw [harg, parseVal_arrBranch, skipWs_dumps, hct, List.cons_append]
      simp only [if_neg hbr, hv, he]
  | .obj [], fuel, rest, hf, _ => by
    cases fuel with
    | zero => omega
    | succ f => rfl
  | .obj (kv :: kvs), fuel, rest, hf, _ => by
    cases fuel with
    | zero => omega
    | succ f =>
      have harg : dumps (.obj (kv :: kvs)) ++ rest
          = '{' :: (dumpsMember kv ++ (dumpsMembersTail kvs ++ '}' :: rest)) := by
        simp [dumps]
      have hqm : dumpsMember kv ++ (dumpsMembersTail kvs ++ '}' :: rest)
          = '"' :: (escStr kv.1 ++ '"' :: (':' :: (dumps kv.2
              ++ (dumpsMembersTail kvs ++ '}' :: rest)))) := by
        obtain ⟨k, v⟩ := kv
        simp [dumpsMember, dumpStr]
      have hlen : (dumpsMember kv).length < f ∧ (dumpsMembersTail kvs).length < f := by
        have : (dumps (.obj (kv :: kvs))).length
            = (dumpsMember kv).length + (dumpsMembersTail kvs).length + 2 := by
          simp [dumps] <;> omega
        omega
      have hm : parseMember f ('"' :: (escStr kv.1 ++ '"' :: (':' :: (dumps kv.2
          ++ (dumpsMembersTail kvs ++ '}' :: rest)))))
          = some (kv, dumpsMembersTail kvs ++ '}' :: rest) := by
        rw [← hqm]
        exact parseMember_dumps kv f _ hlen.1 (numStop_membersTail kvs rest)
      have hms := parseMembersRest_dumps kvs f rest hlen.2
      rw [harg, parseVal_objBranch, hqm, skipWs_cons _ (by decide)]
      simp only [if_neg (by decide : ¬('"' = '}')), hm, hms]
  termination_by v _ _ _ _ => sizeOf v

theorem parseElemsRest_dumps : ∀ (vs : List Json) (fuel : Nat) (rest : List Char),
    (dumpsElemsTail vs).length < fuel →
    parseElemsRest fuel (dumpsElemsTail vs ++ ']' :: rest) = some (vs, rest)
  | [], fuel, rest, hf => by
    cases fuel with
    | zero => omega
    | succ f => rfl
  | v :: vs, fuel, rest, hf => by
    cases fuel with
    | zero => omega
    | succ f =>
      have harg : dumpsElemsTail (v :: vs) ++ ']' :: rest
          = ',' :: (dumps v ++ (dumpsElemsTail vs ++ ']' :: rest)) := by
        simp [dumpsElemsTail]
      have hlen : (dumps v).length < f ∧ (dumpsElemsTail vs).length < f := by
        have : (dumpsElemsTail (v :: vs)).length
            = (dumps v).length + (dumpsElemsTail vs).length + 1 := by
          simp [dumpsElemsTail] <;> omega
        omega
      have hv := parseVal_dumps v f _ hlen.1 (numStop_elemsTail vs rest)
      have he := parseElemsRest_dumps vs f rest hlen.2
      rw [harg, parseElemsRest_comma]
      simp only [hv, he]
  termination_by vs _ _ _ => sizeOf vs

theorem parseMember_dumps : ∀ (kv : List Char × Json) (fuel : Nat) (rest : List Char),
    (dumpsMember kv).length < fuel → numStop rest = true →
    parseMember fuel (dumpsMember kv ++ rest) = some (kv, rest)
  | (k, v), fuel, rest, hf, hr => by
    cases fuel with
    | zero => omega
    | succ f =>
      have harg : dumpsMember (k, v) ++ rest
          = '"' :: (escStr k ++ '"' :: (':' :: (dumps v ++ rest))) := by
        simp [dumpsMember, dumpStr]
      have hlen : (dumps v).length < f := by
        have : (dumpsMember (k, v)).length = (escStr k).length + (dumps v).length + 3 := by
          simp [dumpsMember, dumpStr] <;> omega
        omega
      have hv := parseVal_dumps v f rest hlen hr
      rw [harg, parseMember_quote, parseStrBody_escStr k (':' :: (dumps v ++ rest))]
      simp [skipWs, isJsonWs, hv]
  termination_by kv _ _ _ _ => sizeOf kv

theorem parseMembersRest_dumps : ∀ (kvs : Obj) (fuel : Nat) (rest : List Char),
    (dumpsMembersTail kvs).length < fuel →
    parseMembersRest fuel (dumpsMembersTail kvs ++ '}' :: rest) = some (kvs, rest)
  | [], fuel, rest, hf => by
    cases fuel with
    | zero => omega
    | succ f => rfl
  | kv :: kvs, fuel, rest, hf => by
    cases fuel with
    | zero => omega
    | succ f =>
      have harg : dumpsMembersTail (kv :: kvs) ++ '}' :: rest
          = ',' :: (dumpsMember kv ++ (dumpsMembersTail kvs ++ '}' :: rest)) := by
        simp [dumpsMembersTail]
      have hlen : (dumpsMember kv).length < f ∧ (dumpsMembersTail kvs).length < f := by
        have : (dumpsMembersTail (kv :: kvs)).length
            = (dumpsMember kv).length + (dumpsMembersTail kvs).length + 1 := by
          simp [dumpsMembersTail] <;> omega
        omega
      have hm := parseMember_dumps kv f _ hlen.1 (numStop_membersTail kvs rest)
      have hms := parseMembersRest_dumps kvs f rest hlen.2
      rw [harg, parseMembersRest_comma]
      simp only [hm, hms]
  termination_by kvs _ _ _ => sizeOf kvs

end

/-- `json.loads` inverts `json.dumps` on every value of the model. -/
theorem loads_dumps (v : Json) : loads (dumps v) = some v := by
  have h := parseVal_dumps v ((dumps v).length + 1) [] (by omega) rfl
  rw [List.append_nil] at h
  rw [loads, h]
  rfl

/-! ## `decode` after `encode` -/

theorem pyStrip_eq_self (s : List Char) (c d : Char) (hh : s.head? = some c)
    (hc : isPySpace c = false) (hl : s.getLast? = some d) (hd : isPySpace d = false) :
    pyStrip s = s := by
  unfold pyStrip
  have h1 : s.dropWhile isPySpace = s := by
    cases s with
    | nil => rfl
    | cons a t =>
      simp only [List.head?_cons, Option.some.injEq] at hh
      subst hh
      simp [List.dropWhile_cons, hc]
  rw [h1]
  have h2 : s.reverse.dropWhile isPySpace = s.reverse := by
    rcases hrev : s.reverse with _ | ⟨b, u⟩
    · rfl
    · have hb : s.reverse.head? = some b := by rw [hrev]; rfl
      rw [List.head?_reverse, hl, Option.some.injEq] at hb
      subst hb
      simp [List.dropWhile_cons, hd]
  rw [h2, List.reverse_reverse]

theorem dumps_obj_shape (kv : List Char × Json) (kvs : Obj) :
    dumps (.obj (kv :: kvs))
      = ('{' :: (dumpsMember kv ++ dumpsMembersTail kvs)) ++ ['}'] := by
  simp [dumps]

theorem dumps_obj_head_last (m : Obj) (hm : m ≠ []) :
    (dumps (.obj m)).head? = some '{' ∧ (dumps (.obj m)).getLast? = some '}' := by
  cases m with
  | nil => exact absurd rfl hm
  | cons kv kvs =>
    constructor
    · rw [dumps_obj_shape]
      rfl
    · rw [dumps_obj_shape, List.getLast?_concat]

theorem decode_dumps_obj (m : Obj) (hm : m ≠ []) : decode (dumps (.obj m)) = m := by
  obtain ⟨hh, hl⟩ := dumps_obj_head_last m hm
  have hne : dumps (.obj m) ≠ [] := by
    intro he
    rw [he] at hh
    simp at hh
  have hstrip : pyStrip (dumps (.obj m)) = dumps (.obj m) :=
    pyStrip_eq_self _ '{' '}' hh (by decide) hl (by decide)
  simp [decode, hstrip, hne, hh, hl, loads_dumps]

theorem hasBadDotSeg_suffix_dot : ∀ (x : List Char), hasBadDotSeg (x ++ ['/', '.']) = true
  | [] => rfl
  | c :: x => by
    rw [List.cons_append, hasBadDotSeg]
    simp [hasBadDotSeg_suffix_dot x]

theorem hasBadDotSeg_suffix_dotdot :
    ∀ (x : List Char), hasBadDotSeg (x ++ ['/', '.', '.']) = true
  | [] => rfl
  | c :: x => by
    rw [List.cons_append, hasBadDotSeg]
    simp [hasBadDotSeg_suffix_dotdot x]

theorem endsWithDot_shape {p : List Char} (h : endsWithDot p = true) :
    ∃ x, p = x ++ ['/', '.'] := by
  unfold endsWithDot at h
  rcases hrev : p.reverse with _ | ⟨c, t⟩
  · rw [hrev] at h
    simp at h
  · rcases t with _ | ⟨d, u⟩
    · rw [hrev] at h
      simp at h
    · rw [hrev] at h
      simp only [List.take, decide_eq_true_eq, List.cons.injEq, and_true] at h
      obtain ⟨rfl, rfl, -⟩ := h
      refine ⟨u.reverse, ?_⟩
      have := congrArg List.reverse hrev
      rw [List.reverse_reverse] at this
      rw [this]
      simp

theorem endsWithDotDot_shape {p : List Char} (h : endsWithDotDot p = true) :
    ∃ x, p = x ++ ['/', '.', '.'] := by
  unfold endsWithDotDot at h
  rcases hrev : p.reverse with _ | ⟨c, t⟩
  · rw [hrev] at h
    simp at h
  · rcases t with _ | ⟨d, u⟩
    · rw [hrev] at h
      simp at h
    · rcases u with _ | ⟨e, w⟩
      · rw [hrev] at h
        simp at h
      · rw [hrev] at h
        simp only [List.take, decide_eq_true_eq, List.cons.injEq, and_true] at h
        obtain ⟨rfl, rfl, rfl, -⟩ := h
        refine ⟨w.reverse, ?_⟩
        have := congrArg List.reverse hrev
        rw [List.reverse_reverse] at this
        rw [this]
        simp

theorem badpath_false_not_dots {p : List Char} (h : badpath p = false) :
    endsWithDot p = false ∧ endsWithDotDot p = false := by
  have hseg : hasBadDotSeg p = false := by
    simp only [badpath, Bool.or_eq_false_iff] at h
    exact h.1.2
  constructor
  · by_contra hw
    rw [Bool.not_eq_false] at hw
    obtain ⟨x, rfl⟩ := endsWithDot_shape hw
    rw [hasBadDotSeg_suffix_dot] at hseg
    exact Bool.true_eq_false.mp hseg
  · by_contra hw
    rw [Bool.not_eq_false] at hw
    obtain ⟨x, rfl⟩ := endsWithDotDot_shape hw
    rw [hasBadDotSeg_suffix_dotdot] at hseg
    exact Bool.true_eq_false.mp hseg

/-- Invariant: a successful resolution returns either the empty string (the
`/..`-of-a-top-level-path corner) or an existing path. -/
theorem resolve_ok_exists (store : Store) (hwf : StoreWF store) :
    ∀ (fuel : Nat) (path : List Char) (seen : List (List Char)) (r : List Char),
      resolve store fuel path seen = some (.ok r) → r = [] ∨ existsNode store r = true := by
  intro fuel
  induction fuel with
  | zero => intro path seen r h; simp [resolve] at h
  | succ f ih =>
    intro path seen r h
    rw [resolve] at h
    by_cases hd1 : endsWithDot path = true
    · rw [if_pos hd1] at h
      exact ih _ _ _ h
    · rw [if_neg hd1] at h
      by_cases hd2 : endsWithDotDot path = true
      · rw [if_pos hd2] at h
        rcases hb : resolve store f path.dropLast.dropLast.dropLast [] with _ | ex
        · rw [hb] at h
          simp at h
        · rcases ex with e | base
          · rw [hb] at h
            simp at h
          · rw [hb] at h
            simp only [] at h
            by_cases hc : base.contains '/' = true
            · simp only [hc, if_true, Option.some.injEq, Except.ok.injEq] at h
              subst h
              rcases ih _ _ _ hb with rfl | hbase
              · simp at hc
              · obtain ⟨d, hmem⟩ := (alookup_isSome_iff store base).mp hbase
                by_cases hr0 : rsplitBase base = []
                · exact Or.inl hr0
                · exact Or.inr ((hwf (base, d) hmem).2 hr0)
            · simp only [hc, if_false] at h
              simp at h
      · rw [if_neg hd2] at h
        by_cases h3 : (badpath path && !startsSlash path) = true
        · rw [if_pos h3] at h
          simp at h
        · rw [if_neg h3] at h
          by_cases h4 : (!badpath path && existsNode store path) = true
          · rw [if_pos h4] at h
            simp only [Option.some.injEq, Except.ok.injEq] at h
            subst h
            exact Or.inr (Bool.and_elim_right h4)
          · rw [if_neg h4] at h
            by_cases h5 : path ∈ seen
            · rw [if_pos h5] at h
              simp at h
            · rw [if_neg h5] at h
              rcases hb : resolve store f (rsplitBase path) seen with _ | ex
              · rw [hb] at h
                simp at h
              · rcases ex with e | base2
                · rw [hb] at h
                  rcases e with q | ch | _ | _ <;> simp at h
                · rw [hb] at h
                  simp only [] at h
                  by_cases h6 : badpath (base2 ++ '/' :: rsplitName path) = true
                  · rw [if_pos h6] at h
                    simp at h
                  · rw [if_neg h6] at h
                    by_cases h7 : existsNode store (base2 ++ '/' :: rsplitName path) = true
                    · rw [if_pos h7] at h
                      simp only [Option.some.injEq, Except.ok.injEq] at h
                      subst h
                      exact Or.inr h7
                    · rw [if_neg h7] at h
                      rcases hg : getNode store base2 with e | data
                      · rw [hg] at h
                        rcases e with q | ch | _ | _ <;> simp at h
                      · rw [hg] at h
                        simp only [] at h
                        rcases hl : alookup (decode data) (rsplitName path ++ [' ', '-', '>'])
                            with _ | v
                        · rw [hl] at h
                          simp at h
                        · rw [hl] at h
                          rcases v with _ | b | n | s | es | ms
                          · simp only at h
                            split at h <;> simp at h
                          · simp only at h
                            split at h <;> simp at h
                          · simp only at h
                            split at h <;> simp at h
                          · simp only [] at h
                            by_cases hs : s = []
                            · rw [if_pos hs] at h
                              simp at h
                            · rw [if_neg hs] at h
                              rcases hres2 : resolve store f
                                  (if s.head? = some '/' then s else base2 ++ '/' :: s)
                                  (seen ++ [path]) with _ | ex2
                              · rw [hres2] at h
                                simp at h
                              · rcases ex2 with e2 | r2
                                · rw [hres2] at h
                                  rcases e2 with q | ch | _ | _ <;> simp at h
                                · rw [hres2] at h
                                  simp only [] at h
                                  simp only [Option.some.injEq, Except.ok.injEq] at h
                                  subst h
                                  exact ih _ _ _ hres2
                          · simp only at h
                            split at h <;> simp at h
                          · simp only at h
                            split at h <;> simp at h

/-- An existing path of a well-formed store resolves immediately to itself,
with any fuel and any `seen`. -/
theorem resolve_exists_self (store : Store) (hwf : StoreWF store) (r : List Char)
    (hex : existsNode store r = true) (f2 : Nat) (seen2 : List (List Char)) :
    resolve store (f2 + 1) r seen2 = some (.ok r) := by
  obtain ⟨d, hmem⟩ := (alookup_isSome_iff store r).mp hex
  have hbp := (hwf (r, d) hmem).1
  obtain ⟨hd1, hd2⟩ := badpath_false_not_dots hbp
  rw [resolve, if_neg (by simp [hd1]), if_neg (by simp [hd2]),
    if_neg (by simp [hbp]), if_pos (by simp [hbp, hex])]

/-- Every `NoNode` failure of a resolution whose input does not end in `/.`
or `/..` carries the original input path: the body's `try` re-raises any
inner `NoNodeException` as `NoNode(path)`, and the relative-path check and
the falsy-link check both raise `NoNode(path)` directly. -/
theorem resolve_noNode_path (store : Store) :
    ∀ (fuel : Nat) (path : List Char) (seen : List (List Char)) (q : List Char),
      endsWithDot path = false → endsWithDotDot path = false →
      resolve store fuel path seen = some (.error (.noNode q)) → q = path := by
  intro fuel path seen q h1 h2 h
  cases fuel with
  | zero => simp [resolve] at h
  | succ f =>
    rw [resolve, if_neg (by simp [h1]), if_neg (by simp [h2])] at h
    by_cases h3 : (badpath path && !startsSlash path) = true
    · rw [if_pos h3] at h
      simp only [Option.some.injEq, Except.error.injEq, RErr.noNode.injEq] at h
      exact h.symm
    · rw [if_neg h3] at h
      by_cases h4 : (!badpath path && existsNode store path) = true
      · rw [if_pos h4] at h
        simp at h
      · rw [if_neg h4] at h
        by_cases h5 : path ∈ seen
        · rw [if_pos h5] at h
          simp at h
        · rw [if_neg h5] at h
          rcases hb : resolve store f (rsplitBase path) seen with _ | ex
          · rw [hb] at h
            simp at h
          · rcases ex with e | base2
            · rw [hb] at h
              rcases e with q' | ch | _ | _ <;>
                simp only [Option.some.injEq, Except.error.injEq, RErr.noNode.injEq] at h <;>
                first
                  | exact h.symm
                  | simp at h
            · rw [hb] at h
              simp only [] at h
              by_cases h6 : badpath (base2 ++ '/' :: rsplitName path) = true
              · rw [if_pos h6] at h
                simp at h
              · rw [if_neg h6] at h
                by_cases h7 : existsNode store (base2 ++ '/' :: rsplitName path) = true
                · rw [if_pos h7] at h
                  simp at h
                · rw [if_neg h7] at h
                  rcases hg : getNode store base2 with e | data
                  · rw [hg] at h
                    rcases e with q' | ch | _ | _ <;>
                      simp only [Option.some.injEq, Except.error.injEq,
                        RErr.noNode.injEq] at h <;>
                      first
                        | exact h.symm
                        | simp at h
                  · rw [hg] at h
                    simp only [] at h
                    rcases hl : alookup (decode data) (rsplitName path ++ [' ', '-', '>'])
                        with _ | v
                    · rw [hl] at h
                      simp only [Option.some.injEq, Except.error.injEq,
                        RErr.noNode.injEq] at h
                      exact h.symm
                    · rw [hl] at h
                      rcases v with _ | b | n | s | es | ms
                      · simp only at h
                        split at h <;>
                          simp only [Option.some.injEq, Except.error.injEq,
                            RErr.noNode.injEq] at h <;>
                          first
                            | exact h.symm
                            | simp at h
                      · simp only at h
                        split at h <;>
                          simp only [Option.some.injEq, Except.error.injEq,
                            RErr.noNode.injEq] at h <;>
                          first
                            | exact h.symm
                            | simp at h
                      · simp only at h
                        split at h <;>
                          simp only [Option.some.injEq, Except.error.injEq,
                            RErr.noNode.injEq] at h <;>
                          first
                            | exact h.symm
                            | simp at h
                      · simp only [] at h
                        by_cases hs : s = []
                        · rw [if_pos hs] at h
                          simp only [Option.some.injEq, Except.error.injEq,
                            RErr.noNode.injEq] at h
                          exact h.symm
                        · rw [if_neg hs] at h
                          rcases hres2 : resolve store f
                              (if s.head? = some '/' then s else base2 ++ '/' :: s)
                              (seen ++ [path]) with _ | ex2
                          · rw [hres2] at h
                            simp at h
                          · rcases ex2 with e2 | r2
                            · rcases e2 with q' | ch | _ | _ <;> rw [hres2] at h <;>
                                simp only [Option.some.injEq, Except.error.injEq,
                                  RErr.noNode.injEq] at h <;>
                                first
                                  | exact h.symm
                                  | simp at h
                            · rw [hres2] at h
                              simp at h
                      · simp only at h
                        split at h <;>
                          simp only [Option.some.injEq, Except.error.injEq,
                            RErr.noNode.injEq] at h <;>
                          first
                            | exact h.symm
                            | simp at h
                      · simp only at h
                        split at h <;>
                          simp only [Option.some.injEq, Except.error.injEq,
                            RErr.noNode.injEq] at h <;>
                          first
                            | exact h.symm
                            | simp at h

/-! ## Ephemeral-map lemmas -/

theorem alookup_append {α β : Type} [DecidableEq α] :
    ∀ (m l : List (α × β)) (k : α),
      alookup (m ++ l) k = ((alookup m k).rec (alookup l k) (fun v => some v) : Option β) := by
  intro m l k
  induction m with
  | nil => simp [alookup]
  | cons kv rest ih =>
    obtain ⟨a, b⟩ := kv
    by_cases ha : a = k <;> simp [alookup, ha, ih]

theorem alookup_mapEntry {α β : Type} [DecidableEq α] (p : α) (f : β → β) :
    ∀ (m : List (α × β)) (k : α),
      alookup (m.map (fun kv => if kv.1 = p then (p, f kv.2) else kv)) k
        = if k = p then (alookup m p).map f else alookup m k := by
  intro m
  induction m with
  | nil => intro k; simp [alookup]
  | cons kv rest ih =>
    intro k
    obtain ⟨a, b⟩ := kv
    simp only [List.map_cons]
    by_cases hap : a = p
    · subst hap
      rw [show (if ((a, b) : α × β).1 = a then (a, f b) else (a, b)) = (a, f b) from by simp]
      by_cases hka : k = a
      · subst hka
        simp [alookup]
      · have hak : ¬(a = k) := fun h => hka h.symm
        rw [show alookup ((a, f b) ::
              List.map (fun kv => if kv.1 = a then (a, f kv.2) else kv) rest) k
            = alookup (List.map (fun kv => if kv.1 = a then (a, f kv.2) else kv) rest) k
            from by simp [alookup, hak],
          ih k, if_neg hka, if_neg hka,
          show alookup ((a, b) :: rest) k = alookup rest k from by simp [alookup, hak]]
    · rw [show (if ((a, b) : α × β).1 = p then (p, f b) else (a, b)) = (a, b) from by
        simp [hap]]
      by_cases hka : k = a
      · subst hka
        have hkp : ¬(k = p) := hap
        rw [if_neg hkp]
        simp [alookup]
      · have hak : ¬(a = k) := fun h => hka h.symm
        rw [show alookup ((a, b) ::
              List.map (fun kv => if kv.1 = p then (p, f kv.2) else kv) rest) k
            = alookup (List.map (fun kv => if kv.1 = p then (p, f kv.2) else kv) rest) k
            from by simp [alookup, hak],
          ih k]
        by_cases hkp : k = p
        · rw [if_pos hkp, if_pos hkp,
            show alookup ((a, b) :: rest) p = alookup rest p from by
              simp [alookup, fun h : a = p => hap h]]
        · rw [if_neg hkp, if_neg hkp,
            show alookup ((a, b) :: rest) k = alookup rest k from by simp [alookup, hak]]

theorem alookup_mapSet {α β γ : Type} [DecidableEq α]
    (m : EphMap α β γ) (p : α) (e : EphEntry β γ) (k : α) :
    alookup (mapSet m p e) k = if k = p then some e else alookup m k := by
  unfold mapSet
  by_cases hp : (alookup m p).isSome = true
  · rw [if_pos hp, alookup_mapEntry p (fun _ => e) m k]
    by_cases hkp : k = p
    · obtain ⟨w, hw⟩ := Option.isSome_iff_exists.mp hp
      simp [hkp, hw]
    · simp [hkp]
  · rw [if_neg hp, alookup_append]
    by_cases hkp : k = p
    · subst hkp
      have hnone : alookup m k = none := by
        rcases hm : alookup m k with _ | w
        · rfl
        · rw [hm] at hp
          simp at hp
      simp [hnone, alookup]
    · rcases hm : alookup m k with _ | w
      · simp [alookup, Ne.symm hkp, hkp]
      · simp [hkp]

theorem alookup_filter_ne {α β : Type} [DecidableEq α] (p : α) :
    ∀ (m : List (α × β)) (k : α),
      alookup (m.filter (fun kv => !(kv.1 = p : Bool))) k
        = if k = p then none else alookup m k := by
  intro m
  induction m with
  | nil => intro k; simp [alookup]
  | cons kv rest ih =>
    intro k
    obtain ⟨a, b⟩ := kv
    by_cases hap : a = p
    · subst hap
      rw [show List.filter (fun kv => !(kv.1 = a : Bool)) ((a, b) :: rest)
          = List.filter (fun kv => !(kv.1 = a : Bool)) rest from by simp [List.filter_cons],
        ih k]
      by_cases hka : k = a
      · subst hka
        simp
      · have hak : ¬(a = k) := fun h => hka h.symm
        rw [if_neg hka, if_neg hka,
          show alookup ((a, b) :: rest) k = alookup rest k from by simp [alookup, hak]]
    · rw [show List.filter (fun kv => !(kv.1 = p : Bool)) ((a, b) :: rest)
        = (a, b) :: List.filter (fun kv => !(kv.1 = p : Bool)) rest from by
          simp [List.filter_cons, hap]]
      by_cases hka : k = a
      · subst hka
        have hkp : ¬(k = p) := hap
        rw [if_neg hkp]
        simp [alookup]
      · have hak : ¬(a = k) := fun h => hka h.symm
        rw [show alookup ((a, b) :: List.filter (fun kv => !(kv.1 = p : Bool)) rest) k
            = alookup (List.filter (fun kv => !(kv.1 = p : Bool)) rest) k from by
              simp [alookup, hak],
          ih k]
        by_cases hkp : k = p
        · rw [if_pos hkp, if_pos hkp]
        · rw [if_neg hkp, if_neg hkp,
            show alookup ((a, b) :: rest) k = alookup rest k from by simp [alookup, hak]]

/-- The fold of the `_post_*` hooks agrees with the specification's
last-writer reading of the history, key by key. -/
theorem runOps_eq_ephSpec {α β γ : Type} [DecidableEq α] (ops : List (ZOp α β γ)) (p : α) :
    alookup (runOps ops) p = ephSpec ops p := by
  induction ops using List.reverseRecOn with
  | nil => simp [runOps, ephSpec, ephSpecRev, alookup]
  | append_singleton l op ih =>
    have ihr : alookup (runOps l) p = ephSpecRev l.reverse p := ih
    have hrun : runOps (l ++ [op]) = postStep (runOps l) op := by
      simp [runOps, List.foldl_append]
    have hspec : ephSpec (l ++ [op]) p = ephSpecRev (op :: l.reverse) p := by
      simp [ephSpec, List.reverse_append]
    rw [hrun, hspec]
    cases op with
    | create q d a fl ok =>
      cases ok with
      | false => simpa [postStep, ephSpecRev] using ihr
      | true =>
        simp only [postStep, ephSpecRev]
        by_cases heph : fl &&& EPHEMERAL ≠ 0
        · rw [if_pos heph, if_pos heph, alookup_mapSet]
          by_cases hqp : q = p
          · subst hqp
            simp
          · have hpq : ¬(p = q) := fun h => hqp h.symm
            rw [if_neg hpq, if_neg hqp]
            exact ihr
        · rw [if_neg heph]
          by_cases hqp : q = p
          · subst hqp
            rw [if_pos rfl, if_neg heph]
            exact ihr
          · rw [if_neg hqp]
            exact ihr
    | delete q ok =>
      cases ok with
      | false => simpa [postStep, ephSpecRev] using ihr
      | true =>
        simp only [postStep, ephSpecRev]
        rw [alookup_filter_ne]
        by_cases hqp : q = p
        · subst hqp
          simp
        · have hpq : ¬(p = q) := fun h => hqp h.symm
          rw [if_neg hpq, if_neg hqp]
          exact ihr
    | setData q d ok =>
      cases ok with
      | false => simpa [postStep, ephSpecRev] using ihr
      | true =>
        simp only [postStep, ephSpecRev]
        by_cases hqp : q = p
        · subst hqp
          by_cases hin : (alookup (runOps l) q).isSome = true
          · rw [if_pos hin,
              alookup_mapEntry q (fun x => { x with data := d }) (runOps l) q,
              if_pos rfl, if_pos rfl, ihr]
          · have hnone : alookup (runOps l) q = none :=
              Option.not_isSome_iff_eq_none.mp hin
            rw [if_neg hin, if_pos rfl, ← ihr, hnone]
            rfl
        · have hpq : ¬(p = q) := fun h => hqp h.symm
          by_cases hin : (alookup (runOps l) q).isSome = true
          · rw [if_pos hin,
              alookup_mapEntry q (fun x => { x with data := d }) (runOps l) p,
              if_neg hpq, if_neg hqp]
            exact ihr
          · rw [if_neg hin, if_neg hqp]
            exact ihr
    | setAcl q a ok =>
      cases ok with
      | false => simpa [postStep, ephSpecRev] using ihr
      | true =>
        simp only [postStep, ephSpecRev]
        by_cases hqp : q = p
        · subst hqp
          by_cases hin : (alookup (runOps l) q).isSome = true
          · rw [if_pos hin,
              alookup_mapEntry q (fun x => { x with acl := a }) (runOps l) q,
              if_pos rfl, if_pos rfl, ihr]
          · have hnone : alookup (runOps l) q = none :=
              Option.not_isSome_iff_eq_none.mp hin
            rw [if_neg hin, if_pos rfl, ← ihr, hnone]
            rfl
        · have hpq : ¬(p = q) := fun h => hqp h.symm
          by_cases hin : (alookup (runOps l) q).isSome = true
          · rw [if_pos hin,
              alookup_mapEntry q (fun x => { x with acl := a }) (runOps l) p,
              if_neg hpq, if_neg hqp]
            exact ihr
          · rw [if_neg hin, if_neg hqp]
            exact ihr

theorem hasLiveCreateRev_cons {α β γ : Type} [DecidableEq α] (p : α) (op : ZOp α β γ)
    (rest : List (ZOp α β γ)) :
    hasLiveCreateRev p (op :: rest)
      ↔ (∃ d a fl, op = ZOp.create p d a fl true ∧ fl &&& EPHEMERAL ≠ 0)
        ∨ (op ≠ ZOp.delete p true ∧ hasLiveCreateRev p rest) := by
  constructor
  · rintro ⟨l, d, a, fl, r, heq, heph, hdel⟩
    cases l with
    | nil =>
      simp only [List.nil_append, List.cons.injEq] at heq
      exact Or.inl ⟨d, a, fl, heq.1, heph⟩
    | cons x l2 =>
      simp only [List.cons_append, List.cons.injEq] at heq
      obtain ⟨rfl, hrest⟩ := heq
      refine Or.inr ⟨?_, l2, d, a, fl, r, hrest, heph, ?_⟩
      · intro hop
        exact hdel (hop ▸ List.mem_cons_self _ _)
      · intro hmem
        exact hdel (List.mem_cons_of_mem _ hmem)
  · rintro (⟨d, a, fl, rfl, heph⟩ | ⟨hne, l, d, a, fl, r, heq, heph, hdel⟩)
    · exact ⟨[], d, a, fl, rest, rfl, heph, by simp⟩
    · refine ⟨op :: l, d, a, fl, r, by rw [heq]; rfl, heph, ?_⟩
      intro hmem
      rcases List.mem_cons.mp hmem with h | h
      · exact hne h.symm
      · exact hdel h

theorem ephSpecRev_isSome_iff {α β γ : Type} [DecidableEq α] (p : α) :
    ∀ (rops : List (ZOp α β γ)),
      (ephSpecRev rops p).isSome = true ↔ hasLiveCreateRev p rops := by
  intro rops
  induction rops with
  | nil =>
    simp only [ephSpecRev, Option.isSome_none, Bool.false_eq_true, false_iff]
    rintro ⟨l, d, a, fl, r, heq, -, -⟩
    cases l <;> simp at heq
  | cons op rest ih =>
    rw [hasLiveCreateRev_cons]
    cases op with
    | create q d a fl ok =>
      cases ok with
      | false =>
        simp only [ephSpecRev, ih]
        constructor
        · intro h
          exact Or.inr ⟨by simp, h⟩
        · rintro (⟨d2, a2, fl2, heq, -⟩ | ⟨-, h⟩)
          · simp at heq
          · exact h
      | true =>
        simp only [ephSpecRev]
        by_cases hqp : q = p
        · subst hqp
          rw [if_pos rfl]
          by_cases heph : fl &&& EPHEMERAL ≠ 0
          · rw [if_pos heph]
            simp only [Option.isSome_some, true_iff]
            exact Or.inl ⟨d, a, fl, rfl, heph⟩
          · rw [if_neg heph, ih]
            constructor
            · intro h
              exact Or.inr ⟨by simp, h⟩
            · rintro (⟨d2, a2, fl2, heq, heph2⟩ | ⟨-, h⟩)
              · simp only [ZOp.create.injEq] at heq
                obtain ⟨-, -, -, rfl, -⟩ := heq
                exact absurd heph2 heph
              · exact h
        · rw [if_neg hqp, ih]
          constructor
          · intro h
            exact Or.inr ⟨by simp, h⟩
          · rintro (⟨d2, a2, fl2, heq, -⟩ | ⟨-, h⟩)
            · simp only [ZOp.create.injEq] at heq
              exact absurd heq.1 hqp
            · exact h
    | delete q ok =>
      cases ok with
      | false =>
        simp only [ephSpecRev, ih]
        constructor
        · intro h
          exact Or.inr ⟨by simp, h⟩
        · rintro (⟨d2, a2, fl2, heq, -⟩ | ⟨-, h⟩)
          · simp at heq
          · exact h
      | true =>
        simp only [ephSpecRev]
        by_cases hqp : q = p
        · subst hqp
          rw [if_pos rfl]
          simp only [Option.isSome_none, Bool.false_eq_true, false_iff]
          rintro (⟨d2, a2, fl2, heq, -⟩ | ⟨hne, -⟩)
          · simp at heq
          · exact hne rfl
        · rw [if_neg hqp, ih]
          constructor
          · intro h
            refine Or.inr ⟨?_, h⟩
            simp [hqp]
          · rintro (⟨d2, a2, fl2, heq, -⟩ | ⟨-, h⟩)
            · simp at heq
            · exact h
    | setData q d ok =>
      cases ok with
      | false =>
        simp only [ephSpecRev, ih]
        constructor
        · intro h
          exact Or.inr ⟨by simp, h⟩
        · rintro (⟨d2, a2, fl2, heq, -⟩ | ⟨-, h⟩)
          · simp at heq
          · exact h
      | true =>
        simp only [ephSpecRev]
        by_cases hqp : q = p
        · subst hqp
          rw [if_pos rfl]
          have hmap : (Option.map (fun e => { e with data := d }) (ephSpecRev rest q)).isSome
              = (ephSpecRev rest q).isSome := by
            rcases ephSpecRev rest q with _ | e <;> rfl
          rw [hmap, ih]
          constructor
          · intro h
            exact Or.inr ⟨by simp, h⟩
          · rintro (⟨d2, a2, fl2, heq, -⟩ | ⟨-, h⟩)
            · simp at heq
            · exact h
        · rw [if_neg hqp, ih]
          constructor
          · intro h
            exact Or.inr ⟨by simp, h⟩
          · rintro (⟨d2, a2, fl2, heq, -⟩ | ⟨-, h⟩)
            · simp at heq
            · exact h
    | setAcl q a ok =>
      cases ok with
      | false =>
        simp only [ephSpecRev, ih]
        constructor
        · intro h
          exact Or.inr ⟨by simp, h⟩
        · rintro (⟨d2, a2, fl2, heq, -⟩ | ⟨-, h⟩)
          · simp at heq
          · exact h
      | true =>
        simp only [ephSpecRev]
        by_cases hqp : q = p
        · subst hqp
          rw [if_pos rfl]
          have hmap : (Option.map (fun e => { e with acl := a }) (ephSpecRev rest q)).isSome
              = (ephSpecRev rest q).isSome := by
            rcases ephSpecRev rest q with _ | e <;> rfl
          rw [hmap, ih]
          constructor
          · intro h
            exact Or.inr ⟨by simp, h⟩
          · rintro (⟨d2, a2, fl2, heq, -⟩ | ⟨-, h⟩)
            · simp at heq
            · exact h
        · rw [if_neg hqp, ih]
          constructor
          · intro h
            exact Or.inr ⟨by simp, h⟩
          · rintro (⟨d2, a2, fl2, heq, -⟩ | ⟨-, h⟩)
            · simp at heq
            · exact h

theorem hasLiveCreateRev_reverse {α β γ : Type} [DecidableEq α] (p : α)
    (ops : List (ZOp α β γ)) :
    hasLiveCreateRev p ops.reverse
      ↔ ∃ l d a fl r, ops = l ++ ZOp.create p d a fl true :: r ∧
          fl &&& EPHEMERAL ≠ 0 ∧ ZOp.delete p true ∉ r := by
  constructor
  · rintro ⟨l, d, a, fl, r, heq, heph, hdel⟩
    refine ⟨r.reverse, d, a, fl, l.reverse, ?_, heph, by simpa using hdel⟩
    have h2 := congrArg List.reverse heq
    rw [List.reverse_reverse] at h2
    rw [h2]
    simp
  · rintro ⟨l, d, a, fl, r, heq, heph, hdel⟩
    refine ⟨r.reverse, d, a, fl, l.reverse, ?_, heph, by simpa using hdel⟩
    rw [heq]
    simp

theorem runOps_mem_iff {α β γ : Type} [DecidableEq α] (ops : List (ZOp α β γ)) (p : α) :
    (alookup (runOps ops) p).isSome = true
      ↔ ∃ l d a fl r, ops = l ++ ZOp.create p d a fl true :: r ∧
          fl &&& EPHEMERAL ≠ 0 ∧ ZOp.delete p true ∉ r := by
  rw [runOps_eq_ephSpec, show ephSpec ops p = ephSpecRev ops.reverse p from rfl,
    ephSpecRev_isSome_iff]
  exact hasLiveCreateRev_reverse p ops

/-- A non-OK completion does no bookkeeping at all. -/
theorem postStep_not_ok {α β γ : Type} [DecidableEq α] (m : EphMap α β γ)
    (op : ZOp α β γ) (h : op.isOk = false) : postStep m op = m := by
  cases op with
  | create q d a fl ok =>
    cases ok with
    | false => rfl
    | true => simp [ZOp.isOk] at h
  | delete q ok =>
    cases ok with
    | false => rfl
    | true => simp [ZOp.isOk] at h
  | setData q d ok =>
    cases ok with
    | false => rfl
    | true => simp [ZOp.isOk] at h
  | setAcl q a ok =>
    cases ok with
    | false => rfl
    | true => simp [ZOp.isOk] at h

/-! ## Properties write-path lemmas -/

/-- If the data being scanned contains an unshadowed link entry whose check
fails, the `_setData` loop cannot succeed. -/
theorem checkDataLinksAux_bad_not_true (store : Store) (fuel : Nat) (selfPath : List Char)
    (data : Obj) :
    ∀ (scan : Obj), (∃ n v, (n, v) ∈ scan ∧ isLinkKey n = true ∧
        (alookup data (stripLink n)).isNone = true ∧
        checkLink store fuel selfPath n v = some false) →
      checkDataLinksAux store fuel selfPath data scan ≠ some true := by
  intro scan
  induction scan with
  | nil =>
    rintro ⟨n, v, hmem, -⟩ -
    simp at hmem
  | cons kv rest ih =>
    obtain ⟨name, value⟩ := kv
    rintro ⟨n, v, hmem, hlk, hsh, hbad⟩ hres
    rcases List.mem_cons.mp hmem with heq | hmem2
    · injection heq with h1 h2
      subst h1
      subst h2
      rw [checkDataLinksAux, if_pos (by simp [hlk, hsh]), hbad] at hres
      simp at hres
    · exact ih ⟨n, v, hmem2, hlk, hsh, hbad⟩ (by
        rw [checkDataLinksAux] at hres
        by_cases hcond : (isLinkKey name && (alookup data (stripLink name)).isNone) = true
        · rw [if_pos hcond] at hres
          rcases hcl : checkLink store fuel selfPath name value with _ | b
          · rw [hcl] at hres
            simp at hres
          · cases b
            · rw [hcl] at hres
              simp at hres
            · rw [hcl] at hres
              simpa using hres
        · rw [if_neg hcond] at hres
          exact hres)

/-! ## The claims -/

/-- Claim C1, as stated, is false on the code: with one registered watch and
one remembered ephemeral, `watch_session` re-arms the watch first and only
then issues the ephemeral create, so the create does not precede the re-arm. -/
theorem reconnect_creates_first_cex :
    reconnectSequence (W := Nat) (β := Nat) (γ := Nat) [0] [(['/', 'e'], ⟨0, 0, 1⟩)]
      = [SessAct.rearmWatch 0, SessAct.recreate ['/', 'e']]
    ∧ ¬ createsPrecedeRearms
        (reconnectSequence (W := Nat) (β := Nat) (γ := Nat) [0] [(['/', 'e'], ⟨0, 0, 1⟩)]) :=
  ⟨rfl, by decide⟩

/-- Claim C1 (amended): on the first CONNECTED transition after a session is
LOST, the session layer performs watch re-establishment first and ephemeral
recreation second — in the action sequence of `watch_session`'s new-session
branch, every watch re-arm strictly precedes every ephemeral create. -/
theorem reconnect_rearms_precede_recreates {W β γ : Type} (watches : List W)
    (eph : List (List Char × EphEntry β γ)) (i j : Nat)
    (hi : i < (reconnectSequence watches eph).length)
    (hj : j < (reconnectSequence watches eph).length)
    (hri : ((reconnectSequence watches eph).get ⟨i, hi⟩).isRearm = true)
    (hrj : ((reconnectSequence watches eph).get ⟨j, hj⟩).isRecreate = true) :
    i < j := by
  have hw : ∀ (n : Nat) (hn : n < (reconnectSequence watches eph).length),
      watches.length ≤ n →
      ((reconnectSequence watches eph).get ⟨n, hn⟩).isRearm = false := by
    intro n hn hge
    have hn2 : n - watches.length < eph.length := by
      simp only [reconnectSequence, List.length_append, List.length_map] at hn
      omega
    have heq : (reconnectSequence watches eph).get ⟨n, hn⟩
        = SessAct.recreate (eph.get ⟨n - watches.length, hn2⟩).1 := by
      simp only [reconnectSequence, List.get_eq_getElem]
      rw [List.getElem_append_right (by simpa using hge)]
      simp
    rw [heq]
    rfl
  have hv : ∀ (n : Nat) (hn : n < (reconnectSequence watches eph).length),
      n < watches.length →
      ((reconnectSequence watches eph).get ⟨n, hn⟩).isRecreate = false := by
    intro n hn hlt
    have heq : (reconnectSequence watches eph).get ⟨n, hn⟩
        = SessAct.rearmWatch (watches.get ⟨n, hlt⟩) := by
      simp only [reconnectSequence, List.get_eq_getElem]
      rw [List.getElem_append_left (by simpa using hlt)]
      simp
    rw [heq]
    rfl
  have h1 : i < watches.length := by
    by_contra hge
    push_neg at hge
    rw [hw i hi hge] at hri
    exact Bool.false_ne_true hri
  have h2 : watches.length ≤ j := by
    by_contra hlt
    push_neg at hlt
    rw [hv j hj hlt] at hrj
    exact Bool.false_ne_true hrj
  omega

theorem reconnect_rearms_precede_recreates_witness : (0 : Nat) < 1 :=
  reconnect_rearms_precede_recreates (W := Nat) (β := Nat) (γ := Nat)
    [0] [(['/', 'e'], ⟨0, 0, 1⟩)] 0 1 (by decide) (by decide) rfl rfl

/-- Claim C2: `decode` inverts `encode` on every mapping that is not exactly
the single-key `string_value` form; on the special form `encode` writes the
raw value; and `decode` of any payload yields the empty mapping (empty
stripped payload), the parsed JSON object (brace-delimited stripped payload
that parses), or the `string_value` mapping holding the raw payload. -/
theorem encode_decode_roundtrip :
    (∀ m : Obj, (∀ v, m ≠ [(strValKey, v)]) → (encode m).map decode = some m)
    ∧ (∀ v, encode [(strValKey, .str v)] = some v)
    ∧ (∀ s : List Char,
        (pyStrip s = [] ∧ decode s = [])
        ∨ (∃ kvs, loads (pyStrip s) = some (.obj kvs) ∧ decode s = kvs)
        ∨ decode s = [(strValKey, .str s)]) := by
  refine ⟨?_, ?_, ?_⟩
  · intro m hm
    rcases m with _ | ⟨⟨k, v⟩, rest⟩
    · rfl
    · rcases rest with _ | ⟨kv2, rest2⟩
      · have hk : ¬(k = strValKey) := by
          intro hk
          exact hm v (by rw [hk])
        rw [show encode [(k, v)] = some (dumps (.obj [(k, v)])) from by
          simp [encode, hk]]
        rw [Option.map_some', decode_dumps_obj [(k, v)] (by simp)]
      · rw [show encode ((k, v) :: kv2 :: rest2)
            = some (dumps (.obj ((k, v) :: kv2 :: rest2))) from rfl]
        rw [Option.map_some', decode_dumps_obj ((k, v) :: kv2 :: rest2) (by simp)]
  · intro v
    simp [encode]
  · intro s
    by_cases h1 : pyStrip s = []
    · exact Or.inl ⟨h1, by simp [decode, h1]⟩
    · by_cases h2 : ((pyStrip s).head? = some '{' ∧ (pyStrip s).getLast? = some '}')
      · rcases hload : loads (pyStrip s) with _ | v
        · exact Or.inr (Or.inr (by simp [decode, h1, h2.1, h2.2, hload]))
        · rcases v with _ | b | n | sv | es | ms
          · exact Or.inr (Or.inr (by simp [decode, h1, h2.1, h2.2, hload]))
          · exact Or.inr (Or.inr (by simp [decode, h1, h2.1, h2.2, hload]))
          · exact Or.inr (Or.inr (by simp [decode, h1, h2.1, h2.2, hload]))
          · exact Or.inr (Or.inr (by simp [decode, h1, h2.1, h2.2, hload]))
          · exact Or.inr (Or.inr (by simp [decode, h1, h2.1, h2.2, hload]))
          · exact Or.inr (Or.inl ⟨ms, rfl, by simp [decode, h1, h2.1, h2.2, hload]⟩)
      · refine Or.inr (Or.inr ?_)
        simp only [decode]
        rw [if_neg h1, if_neg (by
          simp only [Bool.and_eq_true, decide_eq_true_eq]
          exact h2)]

theorem encode_decode_roundtrip_witness :
    (encode [(['a'], Json.num 1)]).map decode = some [(['a'], Json.num 1)] :=
  encode_decode_roundtrip.1 [(['a'], Json.num 1)] (by
    intro v h
    simp [strValKey] at h)

/-- Claim C3, as stated, is false on the code: over the well-formed store
`{/, /a}`, `resolve('/a/..')` succeeds and returns the empty string (Python
`'/a'.rsplit('/', 1)[0]`), but resolving that result raises
`NoNode('')`, so the resolver is not idempotent on this successful output. -/
theorem resolve_dotdot_not_idempotent :
    StoreWF [(['/'], []), (['/', 'a'], [])]
    ∧ resolve [(['/'], []), (['/', 'a'], [])] 10 ['/', 'a', '/', '.', '.'] []
        = some (.ok [])
    ∧ resolve [(['/'], []), (['/', 'a'], [])] 10 [] [] = some (.error (.noNode [])) :=
  ⟨by decide, rfl, rfl⟩

/-- Claim C3 (amended): over a well-formed store, whenever `resolve(p)`
succeeds and returns a non-empty path `r`, resolving `r` again succeeds and
returns `r` (with any fuel and any `seen`).  The claim as stated fails only
for the empty-string results that trailing `/..` produces on single-segment
paths. -/
theorem resolve_idempotent_on_nonempty (store : Store) (hwf : StoreWF store)
    (fuel : Nat) (path : List Char) (seen : List (List Char)) (r : List Char)
    (hres : resolve store fuel path seen = some (.ok r)) (hne : r ≠ [])
    (f2 : Nat) (seen2 : List (List Char)) :
    resolve store (f2 + 1) r seen2 = some (.ok r) := by
  rcases resolve_ok_exists store hwf fuel path seen r hres with rfl | hex
  · exact absurd rfl hne
  · exact resolve_exists_self store hwf r hex f2 seen2

theorem resolve_idempotent_on_nonempty_witness :
    resolve [(['/'], []), (['/', 'a'], [])] 1 ['/', 'a'] [] = some (.ok ['/', 'a']) :=
  resolve_idempotent_on_nonempty [(['/'], []), (['/', 'a'], [])] (by decide)
    5 ['/', 'a'] [] ['/', 'a'] rfl (by decide) 0 []

/-- Claim C4, as stated, is false on the code: `resolve('/x/.')` over the
store `{/}` delegates to `resolve('/x')` outside any `try`, so the `NoNode`
it surfaces carries `'/x'`, not the original input `'/x/.'`. -/
theorem resolve_dot_noNode_wrong_path :
    resolve [(['/'], [])] 10 ['/', 'x', '/', '.'] []
      = some (.error (.noNode ['/', 'x']))
    ∧ (['/', 'x'] : List Char) ≠ ['/', 'x', '/', '.'] :=
  ⟨rfl, by decide⟩

/-- Claim C4 (amended): whenever `resolve(p)` fails with `NoNode` for an
input `p` whose trailing segment is not `.` or `..`, the error carries
exactly the original input path `p`; the trailing `/.` and `/..` prefixes
delegate without re-wrapping, so for those inputs the error may instead
carry the stripped path. -/
theorem resolve_noNode_carries_input (store : Store) (fuel : Nat) (path : List Char)
    (seen : List (List Char)) (q : List Char)
    (h1 : endsWithDot path = false) (h2 : endsWithDotDot path = false)
    (hres : resolve store fuel path seen = some (.error (.noNode q))) : q = path :=
  resolve_noNode_path store fuel path seen q h1 h2 hres

theorem resolve_noNode_carries_input_witness :
    (['/', 'q', '/', 'r'] : List Char) = ['/', 'q', '/', 'r'] :=
  resolve_noNode_carries_input [(['/'], [])] 10 ['/', 'q', '/', 'r'] []
    ['/', 'q', '/', 'r'] rfl rfl rfl

/-- Claim C5, as stated, is false on the code: `NodeInfo.__iter__` is
`iter(self.data)`, so a property-link key `'b =>'` is yielded verbatim, not
stripped to `'b'`. -/
theorem nodeIter_link_key_not_stripped :
    nodeIter [(['a'], Json.num 1), (['b', ' ', '=', '>'], Json.str ['/', 'x'])]
      = [['a'], ['b', ' ', '=', '>']]
    ∧ nodeIter [(['a'], Json.num 1), (['b', ' ', '=', '>'], Json.str ['/', 'x'])]
      ≠ [['a'], ['b']] :=
  ⟨rfl, by decide⟩

/-- Claim C5 (amended): iterating a `Properties` observer yields exactly the
keys of the local decoded data, verbatim and in order — link suffixes
(` =>` as well as ` ->`) included, nothing stripped. -/
theorem nodeIter_yields_keys_verbatim (data : Obj) (k : List Char) :
    k ∈ nodeIter data ↔ ∃ v, (k, v) ∈ data := by
  constructor
  · intro h
    obtain ⟨⟨a, b⟩, hm, he⟩ := List.mem_map.mp h
    exact ⟨b, by rwa [show a = k from he] at hm⟩
  · rintro ⟨v, hv⟩
    exact List.mem_map.mpr ⟨(k, v), hv, rfl⟩

/-- Claim C6, as stated, is false on the code: `_import_tree` tests `if
trim:`, and `False` is just as falsy as `None`, so with `trim=False` the
extra live child is *not* silently ignored — the `extra path not trimmed:`
line is printed exactly as for `trim=None`. -/
theorem trim_false_still_prints :
    extraChildOps (some false) ['/', 't'] [['c', '2']] []
      = [ImpAct.printNotTrimmed (notTrimmedMsg ['/', 't', '/', 'c', '2'])]
    ∧ extraChildOps (some false) ['/', 't'] [['c', '2']] [] ≠ [] :=
  ⟨rfl, by decide⟩

/-- Claim C6 (amended): during import, for every live child absent from the
DSL, `trim=True` recursively deletes it, while both `trim=None` and
`trim=False` print `extra path not trimmed: <cpath>` — there is no
silently-ignoring branch. -/
theorem extraChildOps_print_or_delete (trim : Option Bool) (path : List Char)
    (live dsl : List (List Char)) (name : List Char)
    (hmem : name ∈ live) (hnot : dsl.contains name = false) :
    (trim = some true →
      ImpAct.deleteRec (joinPath path name) ∈ extraChildOps trim path live dsl)
    ∧ (trim ≠ some true →
      ImpAct.printNotTrimmed (notTrimmedMsg (joinPath path name))
        ∈ extraChildOps trim path live dsl) := by
  have hmemf : name ∈ live.filter (fun n => !(dsl.contains n)) :=
    List.mem_filter.mpr ⟨hmem, by simp only [hnot, Bool.not_false]⟩
  constructor
  · intro ht
    exact List.mem_map.mpr ⟨name, hmemf, by rw [if_pos ht]⟩
  · intro ht
    exact List.mem_map.mpr ⟨name, hmemf, by rw [if_neg ht]⟩

theorem extraChildOps_print_or_delete_witness :
    ImpAct.printNotTrimmed (notTrimmedMsg ['/', 't', '/', 'c', '2'])
      ∈ extraChildOps (some false) ['/', 't'] [['c', '2']] [] :=
  (extraChildOps_print_or_delete (some false) ['/', 't'] [['c', '2']] [] ['c', '2']
    (by decide) (by decide)).2 (by decide)

/-- Claim C7, as stated, is false on the code: `_setData` only checks link
keys whose stripped name is *not* itself a key of the new data
(`name[:-3] not in data`).  With new data `{c: 1, 'c =>': '/missing x'}` the
link cannot be dereferenced (`checkLink` fails), yet the write goes through
and the store changes. -/
theorem propsSet_shadowed_link_not_checked :
    checkLink demoStore 10 svcPath badLinkKey badLinkVal = some false
    ∧ (propsSet demoState [(['c'], Json.num 1), (badLinkKey, badLinkVal)] 10).map
        Prod.snd = some true
    ∧ (propsSet demoState [(['c'], Json.num 1), (badLinkKey, badLinkVal)] 10).map
        (fun r => r.1.store) ≠ some demoState.store :=
  ⟨rfl, rfl, by decide⟩

/-- Claim C7 (amended): for every `Properties` set or update whose
new/merged data contains a property-link that cannot be dereferenced *and*
whose virtual name is not shadowed by a literal key, the call fails in the
`_setData` check before any store write: the observer's snapshot and the
store are exactly as before. -/
theorem propsSet_bad_link_fails_before_write :
    (∀ (st : PropsState) (new : Obj) (fuel : Nat) (res : PropsState) (wrote : Bool),
      (∃ n v, (n, v) ∈ new ∧ isLinkKey n = true ∧
        (alookup new (stripLink n)).isNone = true ∧
        checkLink st.store fuel st.path n v = some false) →
      propsSet st new fuel = some (res, wrote) → res = st ∧ wrote = false)
    ∧ (∀ (st : PropsState) (new : Obj) (fuel : Nat) (res : PropsState) (wrote : Bool),
      (∃ n v, (n, v) ∈ dictUpdate st.data new ∧ isLinkKey n = true ∧
        (alookup (dictUpdate st.data new) (stripLink n)).isNone = true ∧
        checkLink st.store fuel st.path n v = some false) →
      propsUpdate st new fuel = some (res, wrote) → res = st ∧ wrote = false) := by
  have main : ∀ (st : PropsState) (new : Obj) (fuel : Nat) (res : PropsState)
      (wrote : Bool),
      (∃ n v, (n, v) ∈ new ∧ isLinkKey n = true ∧
        (alookup new (stripLink n)).isNone = true ∧
        checkLink st.store fuel st.path n v = some false) →
      propsSet st new fuel = some (res, wrote) → res = st ∧ wrote = false := by
    intro st new fuel res wrote hbad hres
    rcases hc : checkDataLinks st.store fuel st.path new with _ | b
    · rw [propsSet, hc] at hres
      simp at hres
    · cases b
      · rw [propsSet, hc] at hres
        simp only [Option.some.injEq, Prod.mk.injEq] at hres
        exact ⟨hres.1.symm, hres.2.symm⟩
      · exact absurd hc (checkDataLinksAux_bad_not_true st.store fuel st.path new new hbad)
  exact ⟨main, fun st new fuel res wrote hbad hres =>
    main st (dictUpdate st.data new) fuel res wrote hbad hres⟩

theorem propsSet_bad_link_fails_before_write_witness :
    demoState = demoState ∧ false = false :=
  propsSet_bad_link_fails_before_write.1 demoState [(badLinkKey, badLinkVal)] 10
    demoState false ⟨badLinkKey, badLinkVal, by simp, rfl, rfl, rfl⟩ rfl

/-- Claim C8: the ephemeral map holds exactly the ephemeral nodes created
through this session and not since deleted, each with its last-written data
and ACL: a non-OK completion performs no bookkeeping; the folded `_post_*`
hooks agree key-by-key with the specification's last-writer reading of the
history; and an entry is present precisely when some successful
ephemeral-flagged create of the path has no later successful delete. -/
theorem ephemeral_map_exact_bookkeeping {α β γ : Type} [DecidableEq α] :
    (∀ (m : EphMap α β γ) (op : ZOp α β γ), op.isOk = false → postStep m op = m)
    ∧ (∀ (ops : List (ZOp α β γ)) (p : α), alookup (runOps ops) p = ephSpec ops p)
    ∧ (∀ (ops : List (ZOp α β γ)) (p : α),
        (alookup (runOps ops) p).isSome = true
          ↔ ∃ l d a fl r, ops = l ++ ZOp.create p d a fl true :: r ∧
              fl &&& EPHEMERAL ≠ 0 ∧ ZOp.delete p true ∉ r) :=
  ⟨postStep_not_ok, runOps_eq_ephSpec, runOps_mem_iff⟩

theorem ephemeral_map_exact_bookkeeping_witness :
    postStep (α := Nat) (β := Nat) (γ := Nat) [] (ZOp.delete 0 false) = []
    ∧ alookup (runOps (α := Nat) (β := Nat) (γ := Nat)
        [ZOp.create 0 1 2 1 true, ZOp.setData 0 7 true]) 0
      = ephSpec [ZOp.create 0 1 2 1 true, ZOp.setData 0 7 true] 0 :=
  ⟨ephemeral_map_exact_bookkeeping.1 [] (ZOp.delete 0 false) rfl,
   ephemeral_map_exact_bookkeeping.2.1 [ZOp.create 0 1 2 1 true, ZOp.setData 0 7 true] 0⟩

/-- Claim C9: `Properties.__contains__` returns true exactly when the key
itself or its `' =>'` link form is a literal key of the local data; it reads
only the local snapshot, so it never dereferences the link and never raises,
whatever the link target looks like. -/
theorem propsContains_literal_membership (data : Obj) (k : List Char) :
    propsContains data k = true
      ↔ (∃ v, (k, v) ∈ data) ∨ (∃ v, (k ++ linkSuffix, v) ∈ data) := by
  simp [propsContains, Bool.or_eq_true, alookup_isSome_iff]

/-- Claim C10: `decode` is total; for any payload whose stripped form starts
with `{` and ends with `}` but does not parse as JSON, `decode` returns the
single-key `string_value` mapping holding the raw payload, the same as any
other non-JSON payload. -/
theorem decode_bad_json_string_value (s : List Char)
    (hh : (pyStrip s).head? = some '{') (hl : (pyStrip s).getLast? = some '}')
    (hfail : loads (pyStrip s) = none) :
    decode s = [(strValKey, .str s)] := by
  have h1 : pyStrip s ≠ [] := by
    intro he
    rw [he] at hh
    simp at hh
  simp [decode, h1, hh, hl, hfail]

theorem decode_bad_json_string_value_witness :
    decode ['{', 'x', '}'] = [(strValKey, .str ['{', 'x', '}'])] :=
  decode_bad_json_string_value ['{', 'x', '}'] rfl rfl rfl

end ZcZk
